import Mathlib

/-!
# Verified model of the xgotop session-storage and event-pipeline core

A shallow embedding of the session store (framed/protobuf and textual/JSONL
encoders), the session manager, the metrics-file naming, the processor-worker
batching loop and the reader/processor drain pipeline, translated from the Go
sources under `cmd/xgotop` (`storage/jsonl.go`, `storage/manager.go`,
`storage/storage.go`, the protobuf store, `main.go`).

Machine integers are modelled as `Nat` (all stored values fit their Go types;
well-formedness predicates carry the bounds where they matter).  Fallible
operations return `Except String _` mirroring the Go error strings.  Library
behaviour that the repository links against but does not contain
(`google.golang.org/protobuf` wire marshalling, `encoding/json`) is modelled
explicitly; those definitions carry doc comments saying so.
-/

/-- The Go `storage.Event` struct (`storage.go`): `Timestamp uint64`,
`EventType EventType` (a `uint64`), `Goroutine uint32`,
`ParentGoroutine uint32`, `Attributes [5]uint64`.  The fixed-size array is a
`List Nat`; `Event.Wf` records the length-5 and range invariants the Go types
give for free. -/
structure Event where
  timestamp : Nat
  eventType : Nat
  goroutine : Nat
  parentGoroutine : Nat
  attributes : List Nat
  deriving Repr, DecidableEq

/-- Range/shape invariants of the Go representation of `storage.Event`. -/
def Event.Wf (e : Event) : Prop :=
  e.timestamp < 2 ^ 64 ∧ e.eventType < 2 ^ 64 ∧ e.goroutine < 2 ^ 32 ∧
    e.parentGoroutine < 2 ^ 32 ∧ e.attributes.length = 5 ∧
    ∀ a ∈ e.attributes, a < 2 ^ 64

instance (e : Event) : Decidable e.Wf := by
  unfold Event.Wf; infer_instance

/-- The Go `storage.EventFilter` struct (`storage.go`): four optional equality
or range constraints plus `Limit int` and `Offset int` (signed in Go, hence
`Int` here). -/
structure EventFilter where
  goroutine : Option Nat
  eventType : Option Nat
  startTime : Option Nat
  endTime : Option Nat
  limit : Int
  offset : Int
  deriving Repr, DecidableEq

/-! ## Protobuf varint wire encoding

The repository stores framed events with `proto.Marshal` /
`proto.Unmarshal` from `google.golang.org/protobuf`; the generated message
code is not part of the source tree, so the wire format is modelled here:
base-128 varints, least-significant group first, continuation bit `0x80`. -/

/-- Modelled from the spec: protobuf base-128 varint encoding, structurally
recursive on a fuel bound (any `fuel ≥ n` gives the true encoding). -/
def varintEncodeF : Nat → Nat → List Nat
  | 0, n => [n % 128]
  | fuel + 1, n =>
    if n < 128 then [n] else (128 + n % 128) :: varintEncodeF fuel (n / 128)

/-- Modelled from the spec: protobuf base-128 varint encoding (the payload
encoding used by the framed store's library marshaller). -/
def varintEncode (n : Nat) : List Nat := varintEncodeF n n

/-- Modelled from the spec: protobuf varint decoding; returns the value and
the remaining bytes. -/
def varintDecode : List Nat → Option (Nat × List Nat)
  | [] => none
  | b :: rest =>
    if b < 128 then some (b, rest)
    else (varintDecode rest).map (fun vr => (b - 128 + 128 * vr.1, vr.2))

/-- The protobuf message `RuntimeEvent` used by the framed store. -/
structure RuntimeEvent where
  timestamp : Nat
  eventType : Nat
  goroutine : Nat
  parentGoroutine : Nat
  attributes : List Nat
  deriving Repr, DecidableEq

/-- Modelled from the spec: packed repeated-varint payload. -/
def protoPacked (vs : List Nat) : List Nat :=
  (vs.map varintEncode).flatten

/-- One encoded field of a `RuntimeEvent`: a varint scalar or the packed
attribute list. -/
inductive FieldItem where
  | scalar (field v : Nat)
  | packed (vs : List Nat)
  deriving Repr, DecidableEq

/-- Wire bytes of one field: tag byte (`field*8 ∨ wire-type`) then payload. -/
def itemBytes : FieldItem → List Nat
  | .scalar f v => (f * 8) :: varintEncode v
  | .packed vs => 42 :: (varintEncode (protoPacked vs).length ++ protoPacked vs)

/-- Effect of decoding one field onto the partially decoded message. -/
def protoSetField (m : RuntimeEvent) (field v : Nat) : RuntimeEvent :=
  match field with
  | 1 => { m with timestamp := v }
  | 2 => { m with eventType := v }
  | 3 => { m with goroutine := v }
  | 4 => { m with parentGoroutine := v }
  | _ => m

def itemApply : FieldItem → RuntimeEvent → RuntimeEvent
  | .scalar f v, m => protoSetField m f v
  | .packed vs, m => { m with attributes := m.attributes ++ vs }

/-- Tag byte of a scalar field fits in one varint byte. -/
def FieldItem.Wf : FieldItem → Prop
  | .scalar f _ => f * 8 < 128
  | .packed _ => True

/-- Modelled from the spec: the field list `proto.Marshal` emits for a
`RuntimeEvent` — canonical field order, zero scalars and the empty list
omitted. -/
def protoEventItems (m : RuntimeEvent) : List FieldItem :=
  (if m.timestamp = 0 then [] else [.scalar 1 m.timestamp]) ++
  (if m.eventType = 0 then [] else [.scalar 2 m.eventType]) ++
  (if m.goroutine = 0 then [] else [.scalar 3 m.goroutine]) ++
  (if m.parentGoroutine = 0 then [] else [.scalar 4 m.parentGoroutine]) ++
  (if m.attributes = [] then [] else [.packed m.attributes])

/-- Modelled from the spec: `proto.Marshal` for `RuntimeEvent`. -/
def protoEncodeEvent (m : RuntimeEvent) : List Nat :=
  ((protoEventItems m).map itemBytes).flatten

/-- Modelled from the spec: decoder for a packed repeated-varint payload.
`fuel` bounds the number of elements (one byte minimum each). -/
def protoDecodePacked : Nat → List Nat → Option (List Nat)
  | _, [] => some []
  | 0, _ :: _ => none
  | fuel + 1, b :: rest =>
    match varintDecode (b :: rest) with
    | none => none
    | some vr => (protoDecodePacked fuel vr.2).map (fun vs => vr.1 :: vs)

/-- Modelled from the spec: the `proto.Unmarshal` field loop for
`RuntimeEvent`: read a tag varint, dispatch on wire type, store known
fields, skip unknown ones.  `fuel` bounds the number of fields. -/
def protoDecodeFields : Nat → List Nat → RuntimeEvent → Option RuntimeEvent
  | _, [], m => some m
  | 0, _ :: _, _ => none
  | fuel + 1, b :: rest, m =>
    match varintDecode (b :: rest) with
    | none => none
    | some tr =>
      if tr.1 % 8 = 0 then
        match varintDecode tr.2 with
        | none => none
        | some vr => protoDecodeFields fuel vr.2 (protoSetField m (tr.1 / 8) vr.1)
      else if tr.1 % 8 = 2 then
        match varintDecode tr.2 with
        | none => none
        | some lr =>
          if lr.1 ≤ lr.2.length then
            if tr.1 / 8 = 5 then
              match protoDecodePacked (lr.2.take lr.1).length (lr.2.take lr.1) with
              | none => none
              | some vs =>
                protoDecodeFields fuel (lr.2.drop lr.1)
                  { m with attributes := m.attributes ++ vs }
            else protoDecodeFields fuel (lr.2.drop lr.1) m
          else none
      else none

/-- Modelled from the spec: `proto.Unmarshal` into a fresh `RuntimeEvent`. -/
def protoDecodeEvent (bs : List Nat) : Option RuntimeEvent :=
  protoDecodeFields bs.length bs ⟨0, 0, 0, 0, []⟩

/-- Modelled from the spec: `proto.Marshal` for `RuntimeEventBatch` — each
event a length-delimited submessage under field number 1. -/
def protoEncodeBatch (events : List RuntimeEvent) : List Nat :=
  (events.map (fun ev =>
    10 :: (varintEncode (protoEncodeEvent ev).length ++ protoEncodeEvent ev))).flatten

/-- Modelled from the spec: `proto.Unmarshal` loop for `RuntimeEventBatch`:
repeated field 1 submessages collected in order, unknown fields skipped.
`fuel` bounds the number of top-level fields. -/
def protoDecodeBatch : Nat → List Nat → Option (List RuntimeEvent)
  | _, [] => some []
  | 0, _ :: _ => none
  | fuel + 1, b :: rest =>
    match varintDecode (b :: rest) with
    | none => none
    | some tr =>
      if tr.1 % 8 = 0 then
        match varintDecode tr.2 with
        | none => none
        | some vr => protoDecodeBatch fuel vr.2
      else if tr.1 % 8 = 2 then
        match varintDecode tr.2 with
        | none => none
        | some lr =>
          if lr.1 ≤ lr.2.length then
            if tr.1 / 8 = 1 then
              match protoDecodeEvent (lr.2.take lr.1) with
              | none => none
              | some ev =>
                (protoDecodeBatch fuel (lr.2.drop lr.1)).map (fun evs => ev :: evs)
            else protoDecodeBatch fuel (lr.2.drop lr.1)
          else none
      else none

/-- Modelled from the spec: unmarshal a whole `RuntimeEventBatch`. -/
def protoDecodeBatchTop (bs : List Nat) : Option (List RuntimeEvent) :=
  protoDecodeBatch bs.length bs

/-- `WriteEvent` building its `RuntimeEvent` from a `storage.Event`
(field-for-field, `Attributes[:]`). -/
def eventToProto (e : Event) : RuntimeEvent :=
  ⟨e.timestamp, e.eventType, e.goroutine, e.parentGoroutine, e.attributes⟩

/-- `convertFromProto`: copy the decoded fields, `copy(a[:], attributes)`
into a zeroed 5-slot array. -/
def convertFromProto (r : RuntimeEvent) : Event :=
  ⟨r.timestamp, r.eventType, r.goroutine, r.parentGoroutine,
    r.attributes.take 5 ++ List.replicate (5 - r.attributes.length) 0⟩

/-- `binary.LittleEndian.PutUint32(buf, uint32 n)`. -/
def putUint32LE (n : Nat) : List Nat :=
  [n % 256, n / 256 % 256, n / 65536 % 256, n / 16777216 % 256]

/-- `binary.LittleEndian.Uint32` over four bytes. -/
def readU32 (b0 b1 b2 b3 : Nat) : Nat :=
  b0 + 256 * b1 + 65536 * b2 + 16777216 * b3

/-- The byte stream `WriteEvent` appends for one event. -/
def frameSingle (e : Event) : List Nat :=
  putUint32LE (protoEncodeEvent (eventToProto e)).length ++
    protoEncodeEvent (eventToProto e)

/-- The byte stream `WriteBatch` appends: sentinel, length, batch payload. -/
def frameBatch (es : List Event) : List Nat :=
  putUint32LE 4294967295 ++
    putUint32LE (protoEncodeBatch (es.map eventToProto)).length ++
    protoEncodeBatch (es.map eventToProto)

/-- One store-mutating append: `WriteEvent` or `WriteBatch`. -/
inductive WriteOp where
  | single (e : Event)
  | batch (es : List Event)
  deriving Repr, DecidableEq

def opEvents : WriteOp → List Event
  | .single e => [e]
  | .batch es => es

def opBytes : WriteOp → List Nat
  | .single e => frameSingle e
  | .batch es => frameBatch es

def opsEvents (ops : List WriteOp) : List Event :=
  (ops.map opEvents).flatten

def opsBytes (ops : List WriteOp) : List Nat :=
  (ops.map opBytes).flatten

/-- Well-formed append: events carry the Go-type invariants, and a batch
payload stays below the `0xFFFFFFFF` sentinel (the single-event payload is
proved small unconditionally). -/
def WriteOp.Wf : WriteOp → Prop
  | .single e => e.Wf
  | .batch es => (∀ e ∈ es, e.Wf) ∧
      (protoEncodeBatch (es.map eventToProto)).length < 4294967295

/-- `shouldIncludeEvent` (framed store): offset positions first, then the
four AND-ed constraints; `currentCount` is accepted and ignored exactly as
in the source. -/
def shouldIncludeEvent (pbEvent : RuntimeEvent) (filter : Option EventFilter)
    (offset : Nat) (_currentCount : Nat) : Bool :=
  match filter with
  | none => true
  | some f =>
    if 0 < f.offset ∧ (offset : Int) < f.offset then false
    else if (match f.goroutine with
             | some g => pbEvent.goroutine ≠ g
             | none => false : Bool) then false
    else if (match f.eventType with
             | some t => pbEvent.eventType ≠ t
             | none => false : Bool) then false
    else if (match f.startTime with
             | some lo => pbEvent.timestamp < lo
             | none => false : Bool) then false
    else if (match f.endTime with
             | some hi => hi < pbEvent.timestamp
             | none => false : Bool) then false
    else true

/-- `filter != nil && filter.Limit > 0 && len(events) >= filter.Limit`. -/
def limitReached (filter : Option EventFilter) (n : Nat) : Bool :=
  match filter with
  | none => false
  | some f => 0 < f.limit ∧ f.limit ≤ (n : Int)

/-- The `for _, pbEvent := range batch.Events` body of `ReadEvents`:
include-check, `offset++`, limit check with early return (`true` flag). -/
def pbBatchInclude : Option EventFilter → List RuntimeEvent → Nat → List Event →
    Nat × List Event × Bool
  | _, [], offset, events => (offset, events, false)
  | filter, pbe :: more, offset, events =>
    let events2 := if shouldIncludeEvent pbe filter offset events.length then
        events ++ [convertFromProto pbe] else events
    if limitReached filter events2.length then (offset + 1, events2, true)
    else pbBatchInclude filter more (offset + 1) events2

/-- `ProtobufStore.ReadEvents` frame loop: read a 4-byte length; sentinel ⇒
batch frame, otherwise single frame; filter while decoding; clean EOF only
at a frame boundary.  `fuel` bounds the number of frames (each consumes at
least four bytes, so the caller passes the byte count). -/
def pbReadLoop : Nat → List Nat → Option EventFilter → Nat → List Event →
    Except String (List Event)
  | _, [], _, _, events => .ok events
  | 0, _ :: _, _, _, _ => .error "internal: out of fuel"
  | fuel + 1, b0 :: b1 :: b2 :: b3 :: rest, filter, offset, events =>
    let length := readU32 b0 b1 b2 b3
    if length = 4294967295 then
      match rest with
      | b4 :: b5 :: b6 :: b7 :: rest2 =>
        let blen := readU32 b4 b5 b6 b7
        if blen ≤ rest2.length then
          match protoDecodeBatchTop (rest2.take blen) with
          | none => .error "unmarshal batch: proto error"
          | some pbEvents =>
            match pbBatchInclude filter pbEvents offset events with
            | (_, events2, true) => .ok events2
            | (offset2, events2, false) =>
              pbReadLoop fuel (rest2.drop blen) filter offset2 events2
        else .error "read batch data: unexpected EOF"
      | _ => .error "read batch length: unexpected EOF"
    else
      if length ≤ rest.length then
        match protoDecodeEvent (rest.take length) with
        | none => .error "unmarshal event: proto error"
        | some pbEvent =>
          let events2 := if shouldIncludeEvent pbEvent filter offset events.length then
              events ++ [convertFromProto pbEvent] else events
          if limitReached filter events2.length then .ok events2
          else pbReadLoop fuel (rest.drop length) filter (offset + 1) events2
      else .error "read event data: unexpected EOF"
  | _ + 1, _, _, _, _ => .error "read length: unexpected EOF"

/-- `ProtobufStore.ReadEvents` over the bytes of the events file. -/
def pbReadEventsBytes (bytes : List Nat) (filter : Option EventFilter) :
    Except String (List Event) :=
  pbReadLoop bytes.length bytes filter 0 []

/-- The frame loop's effect on the decoded event sequence: one
include/limit step per stored event, threading the position counter. -/
def pbScanModel : Option EventFilter → List Event → Nat → List Event → List Event
  | _, [], _, events => events
  | filter, e :: more, offset, events =>
    let events2 := if shouldIncludeEvent (eventToProto e) filter offset events.length then
        events ++ [e] else events
    if limitReached filter events2.length then events2
    else pbScanModel filter more (offset + 1) events2

/-- `pbBatchInclude` phrased over the original events (pre-marshalling). -/
def pbBatchRef : Option EventFilter → List Event → Nat → List Event →
    Nat × List Event × Bool
  | _, [], offset, events => (offset, events, false)
  | filter, e :: more, offset, events =>
    let events2 := if shouldIncludeEvent (eventToProto e) filter offset events.length then
        events ++ [e] else events
    if limitReached filter events2.length then (offset + 1, events2, true)
    else pbBatchRef filter more (offset + 1) events2

/-- The conjunction of the four value constraints of an `EventFilter`
(spec: "logical AND of task-id equality, kind equality, timestamp ≥ lower,
timestamp ≤ upper"). -/
def eventMatches (f : EventFilter) (e : Event) : Bool :=
  (match f.goroutine with | some g => e.goroutine = g | none => true) &&
  (match f.eventType with | some t => e.eventType = t | none => true) &&
  (match f.startTime with | some lo => lo ≤ e.timestamp | none => true) &&
  (match f.endTime with | some hi => e.timestamp ≤ hi | none => true)

/-- State of a `ProtobufStore`: flushed file bytes, the `bufio.Writer`
buffer, the event counter, and whether the underlying file rejects writes
(all-or-nothing model of an I/O failure surfaced at `Flush`). -/
structure ProtobufStore where
  fileData : List Nat
  buffer : List Nat
  eventCount : Nat
  fileFailing : Bool
  deriving Repr, DecidableEq

/-- `NewProtobufStore`: fresh empty events file and write buffer. -/
def ProtobufStore.new : ProtobufStore := ⟨[], [], 0, false⟩

/-- `bufio.Writer.Flush` to the underlying file. -/
def pbFlush (s : ProtobufStore) : ProtobufStore × Option String :=
  if s.fileFailing then (s, some "write failed")
  else ({ s with fileData := s.fileData ++ s.buffer, buffer := [] }, none)

/-- `ProtobufStore.WriteEvent`: marshal, length-prefix, buffer the frame,
bump the counter — no flush. -/
def pbWriteEvent (s : ProtobufStore) (e : Event) : ProtobufStore :=
  { s with buffer := s.buffer ++ frameSingle e, eventCount := s.eventCount + 1 }

/-- `ProtobufStore.WriteBatch`: marshal the batch, write sentinel + length +
payload, flush; the counter is bumped by the batch length only after a
successful flush. -/
def pbWriteBatch (s : ProtobufStore) (es : List Event) : ProtobufStore × Option String :=
  let s1 := { s with buffer := s.buffer ++ frameBatch es }
  match pbFlush s1 with
  | (s2, some err) => (s2, some ("flush writer: " ++ err))
  | (s2, none) => ({ s2 with eventCount := s2.eventCount + es.length }, none)

/-- `ProtobufStore.Close`: flush then close. -/
def pbClose (s : ProtobufStore) : ProtobufStore × Option String :=
  match pbFlush s with
  | (s2, some err) => (s2, some ("flush writer: " ++ err))
  | (s2, none) => (s2, none)

/-- `ProtobufStore.ReadEvents` opens the events file afresh, so it scans the
flushed bytes only — buffered but unflushed frames are invisible. -/
def pbReadEvents (s : ProtobufStore) (filter : Option EventFilter) :
    Except String (List Event) :=
  pbReadEventsBytes s.fileData filter

/-- Apply a sequence of appends to a framed store (error results of
`WriteBatch` are discarded by the caller, as in the processing loop). -/
def pbApplyOps (s : ProtobufStore) : List WriteOp → ProtobufStore
  | [] => s
  | .single e :: ops => pbApplyOps (pbWriteEvent s e) ops
  | .batch es :: ops => pbApplyOps (pbWriteBatch s es).1 ops

/-- A JSON value, as produced/consumed by the `encoding/json` model. -/
inductive Json where
  | num (n : Nat)
  | str (s : String)
  | bool (b : Bool)
  | null
  | arr (elems : List Json)
  | obj (fields : List (String × Json))

/-- One line of `events.jsonl` after splitting: a parsed JSON value, or a
line `json.Unmarshal` rejects (malformed or truncated). -/
inductive JLine where
  | good (j : Json)
  | malformed

/-- Modelled from the spec: `json.Marshal` of `storage.Event` under its
struct tags (`timestamp`, `event_type`, `goroutine`, `parent_goroutine`,
`attributes`). -/
def jsonMarshalEvent (e : Event) : Json :=
  .obj [("timestamp", .num e.timestamp), ("event_type", .num e.eventType),
        ("goroutine", .num e.goroutine), ("parent_goroutine", .num e.parentGoroutine),
        ("attributes", .arr (e.attributes.map Json.num))]

def jsonNumToNat : Json → Except String Nat
  | .num n => .ok n
  | _ => .error "unmarshal event: cannot unmarshal value into uint64"

/-- Decode a JSON array of numbers, stopping at the first bad element. -/
def jsonNums : List Json → Except String (List Nat)
  | [] => .ok []
  | j :: js => do
    let v ← jsonNumToNat j
    let vs ← jsonNums js
    .ok (v :: vs)

/-- Modelled from the spec: `json.Unmarshal` into `storage.Event` — absent
fields keep the zero value, unknown fields are ignored, the attributes
array fills a zeroed 5-slot array (extra entries discarded). -/
def jsonUnmarshalEvent : Json → Except String Event
  | .obj fields => do
    let getNum (key : String) : Except String Nat :=
      match fields.lookup key with
      | none => .ok 0
      | some j => jsonNumToNat j
    let ts ← getNum "timestamp"
    let et ← getNum "event_type"
    let g ← getNum "goroutine"
    let pg ← getNum "parent_goroutine"
    let attrs ← match fields.lookup "attributes" with
      | none => .ok (List.replicate 5 0)
      | some (.arr xs) => do
        let vs ← jsonNums xs
        .ok (vs.take 5 ++ List.replicate (5 - vs.length) 0)
      | some _ => .error "unmarshal event: cannot unmarshal value into [5]uint64"
    .ok ⟨ts, et, g, pg, attrs⟩
  | _ => .error "unmarshal event: cannot unmarshal value into Event"

/-- The filter block of `JSONLStore.ReadEvents` for one decoded event:
the four `continue`-on-mismatch checks, then the offset skip (which counts
only events that passed the four checks).  Returns the updated `skipped`
counter and whether the event is appended. -/
def jsonlClassify (filter : Option EventFilter) (event : Event) (skipped : Nat) :
    Nat × Bool :=
  match filter with
  | none => (skipped, true)
  | some f =>
    if (match f.goroutine with
        | some g => event.goroutine ≠ g
        | none => false : Bool) then (skipped, false)
    else if (match f.eventType with
        | some t => event.eventType ≠ t
        | none => false : Bool) then (skipped, false)
    else if (match f.startTime with
        | some lo => event.timestamp < lo
        | none => false : Bool) then (skipped, false)
    else if (match f.endTime with
        | some hi => hi < event.timestamp
        | none => false : Bool) then (skipped, false)
    else if 0 < f.offset ∧ (skipped : Int) < f.offset then (skipped + 1, false)
    else (skipped, true)

/-- The scanner loop of `JSONLStore.ReadEvents`: per line, unmarshal (any
failure aborts the whole scan with the unmarshal error, discarding the
events collected so far), filter, append, check the limit cap. -/
def jsonlScanLines : List JLine → Option EventFilter → Nat → List Event →
    Except String (List Event)
  | [], _, _, events => .ok events
  | .malformed :: _, _, _, _ => .error "unmarshal event: invalid character"
  | .good j :: more, filter, skipped, events =>
    match jsonUnmarshalEvent j with
    | .error err => .error err
    | .ok event =>
      match jsonlClassify filter event skipped with
      | (skipped2, false) => jsonlScanLines more filter skipped2 events
      | (skipped2, true) =>
        let events2 := events ++ [event]
        if limitReached filter events2.length then .ok events2
        else jsonlScanLines more filter skipped2 events2

/-- State of a `JSONLStore`: flushed lines of `events.jsonl`, the
`bufio.Writer` buffer, the counter, whether the file handle permits reads
(`NewJSONLStore` opens `O_WRONLY`, `OpenJSONLStore` opens for reading),
and whether the underlying file rejects writes. -/
structure JSONLStore where
  fileLines : List JLine
  buffer : List JLine
  eventCount : Nat
  readable : Bool
  fileFailing : Bool

/-- `NewJSONLStore`: creates `events.jsonl` with `O_CREATE|O_WRONLY|O_APPEND`
(a write-only handle). -/
def JSONLStore.new : JSONLStore := ⟨[], [], 0, false, false⟩

/-- `OpenJSONLStore`: `os.Open` (read-only) on an existing file. -/
def JSONLStore.openRead (lines : List JLine) : JSONLStore := ⟨lines, [], 0, true, false⟩

/-- `bufio.Writer.Flush` for the textual store. -/
def jsonlFlush (s : JSONLStore) : JSONLStore × Option String :=
  if s.fileFailing then (s, some "write failed")
  else ({ s with fileLines := s.fileLines ++ s.buffer, buffer := [] }, none)

/-- `JSONLStore.WriteEvent`: marshal, write line, flush, and only then bump
the counter. -/
def jsonlWriteEvent (s : JSONLStore) (e : Event) : JSONLStore × Option String :=
  let s1 := { s with buffer := s.buffer ++ [JLine.good (jsonMarshalEvent e)] }
  match jsonlFlush s1 with
  | (s2, some err) => (s2, some ("flush writer: " ++ err))
  | (s2, none) => ({ s2 with eventCount := s2.eventCount + 1 }, none)

/-- `JSONLStore.WriteBatch`: the loop marshals and buffers each line and
bumps the counter per event; the single flush happens after the loop, so
the counter is already incremented by the whole batch when the flush
fails. -/
def jsonlWriteBatch (s : JSONLStore) (es : List Event) : JSONLStore × Option String :=
  let s1 := { s with
                buffer := s.buffer ++ es.map (fun e => JLine.good (jsonMarshalEvent e))
                eventCount := s.eventCount + es.length }
  match jsonlFlush s1 with
  | (s2, some err) => (s2, some ("flush writer: " ++ err))
  | (s2, none) => (s2, none)

/-- `JSONLStore.ReadEvents` seeks `s.file` to the start and scans it: on a
write-only handle (`NewJSONLStore`) the read fails (`EBADF`), surfaced as
the scanner error. -/
def jsonlReadEvents (s : JSONLStore) (filter : Option EventFilter) :
    Except String (List Event) :=
  if s.readable then jsonlScanLines s.fileLines filter 0 []
  else .error "scan file: bad file descriptor"

/-- Goroutine-id collection pass of `JSONLStore.GetGoroutines` (the Go map
iteration order is unspecified; first-appearance order is the chosen
representative). -/
def jsonlCollectGoroutines : List JLine → List Nat → Except String (List Nat)
  | [], acc => .ok acc
  | .malformed :: _, _ => .error "unmarshal event: invalid character"
  | .good j :: more, acc =>
    match jsonUnmarshalEvent j with
    | .error err => .error err
    | .ok ev => jsonlCollectGoroutines more
        (if acc.contains ev.goroutine then acc else acc ++ [ev.goroutine])

/-- `JSONLStore.GetGoroutines`: same write-only-handle failure mode as
`ReadEvents`. -/
def jsonlGetGoroutines (s : JSONLStore) : Except String (List Nat) :=
  if s.readable then jsonlCollectGoroutines s.fileLines []
  else .error "scan file: bad file descriptor"

/-- The lines the textual writer emits for a list of events. -/
def jsonlLinesOf (evs : List Event) : List JLine :=
  evs.map (fun e => JLine.good (jsonMarshalEvent e))

/-- Apply a sequence of appends to a textual store. -/
def jsonlApplyOps (s : JSONLStore) : List WriteOp → JSONLStore
  | [] => s
  | .single e :: ops => jsonlApplyOps (jsonlWriteEvent s e).1 ops
  | .batch es :: ops => jsonlApplyOps (jsonlWriteBatch s es).1 ops

inductive StoreKind where
  | protobuf
  | jsonl
  deriving Repr, DecidableEq

/-- Modelled from the spec: Go `strings.ToLower` on the ASCII range (which
covers every format name; the Go library function is Unicode-aware but
agrees with this on ASCII input). -/
def toLowerAscii (s : String) : String :=
  String.mk (s.data.map (fun c => if c.isUpper then Char.ofNat (c.toNat + 32) else c))

/-- The format switch of `Manager.CreateSession`: lower-case the name, then
`"jsonl" | "json"` ⇒ textual, `"protobuf" | "pb" | "proto"` ⇒ framed,
anything else is the unknown-format error. -/
def createSessionFormat (format : String) : Option StoreKind :=
  let f := toLowerAscii format
  if f = "jsonl" ∨ f = "json" then some .jsonl
  else if f = "protobuf" ∨ f = "pb" ∨ f = "proto" then some .protobuf
  else none

/-- The parts of the session base directory that `CreateSession` /
`ListSessions` touch: session subdirectories, which of them have a loadable
`metadata.json`, and which have an event-data file of which kind. -/
structure SessionFS where
  dirs : List String
  metadata : List String
  eventFiles : List (String × StoreKind)

/-- `Manager.CreateSession`: `MkdirAll` the session directory, write
`metadata.json`, and only then dispatch on the format name; an unknown
format returns the error with the directory and metadata left in place. -/
def createSession (fs : SessionFS) (id : String) (format : String) :
    SessionFS × Except String StoreKind :=
  let fs1 := { fs with dirs := if id ∈ fs.dirs then fs.dirs else fs.dirs ++ [id] }
  let fs2 := { fs1 with
                 metadata := if id ∈ fs1.metadata then fs1.metadata
                             else fs1.metadata ++ [id] }
  match createSessionFormat format with
  | some .jsonl => ({ fs2 with eventFiles := fs2.eventFiles ++ [(id, .jsonl)] }, .ok .jsonl)
  | some .protobuf =>
      ({ fs2 with eventFiles := fs2.eventFiles ++ [(id, .protobuf)] }, .ok .protobuf)
  | none => (fs2, .error ("unknown format: " ++ format ++ " (supported: jsonl, protobuf)"))

/-- `Manager.ListSessions`: subdirectories whose metadata loads; unreadable
ones are skipped silently. -/
def listSessions (fs : SessionFS) : List String :=
  fs.dirs.filter (fun d => decide (d ∈ fs.metadata))

/-! ## Metrics file naming (`saveMetrics` in `main.go`) -/

/-- The filename construction of `saveMetrics`: the `mfp` flag value (a
suffix despite the flag name) gets an underscore prepended when non-empty,
`"metrics"` gets `"_" ++ timestamp` unless the no-timestamp flag `mft` is
set, then `"_" ++ prefix` (already underscore-prefixed) when non-empty,
then `".json"`. -/
def saveMetricsFilename (mfp : String) (mft : Bool) (ts : String) : String :=
  let p := if mfp ≠ "" then "_" ++ mfp else mfp
  let f1 := "metrics"
  let f2 := if !mft then f1 ++ "_" ++ ts else f1
  let f3 := if p ≠ "" then f2 ++ "_" ++ p else f2
  f3 ++ ".json"

/-! ## Processor worker batching (`main.go` process-worker loop) -/

/-- Per-worker state of the processing loop: the reused batch buffer, the
sequence of batches handed to `WriteBatch`, and whether the flush timer is
armed (a `time.Timer` that has fired stays disarmed until `Reset`). -/
structure ProcWorker where
  batch : List Event
  stored : List (List Event)
  timerArmed : Bool
  deriving Repr, DecidableEq

/-- `flushBatch`: early return on an empty batch — before the
`flushTimer.Reset` at the end, so an empty flush does not rearm the
timer. -/
def flushBatch (s : ProcWorker) : ProcWorker :=
  if s.batch = [] then s
  else { batch := [], stored := s.stored ++ [s.batch], timerArmed := true }

/-- `case <-flushTimer.C`: receiving from the fired timer disarms it, then
`flushBatch()` runs. -/
def onFlushTimer (s : ProcWorker) : ProcWorker :=
  flushBatch { s with timerArmed := false }

/-- `case event := <-eventCh`: append to the batch; flush when the batch
size reaches `batchSize`. -/
def onEvent (B : Nat) (e : Event) (s : ProcWorker) : ProcWorker :=
  let s1 := { s with batch := s.batch ++ [e] }
  if B ≤ s1.batch.length then flushBatch s1 else s1

/-! ## Shutdown drain pipeline (`main.go`)

Reader workers consume ringbuffer records (decode failures are logged and
skipped), enqueue onto `eventCh`, and exit when the ringbuffer is closed;
`main` waits for them, closes `readersStopped` and `eventCh`; processor
workers drain the channel into their batches and flush on exit.  Storage
writes are modelled as succeeding (web mode with a healthy store).  Only
the counts matter for the no-loss property, so batches are sizes. -/

structure DrainState where
  ring : List Bool
  ringClosed : Bool
  readers : Nat
  readCount : Nat
  rejected : Nat
  chan : Nat
  chanClosed : Bool
  procs : List (Option Nat)
  stored : Nat
  deriving Repr, DecidableEq

/-- Events parked in processor batch buffers. -/
def batchSum (procs : List (Option Nat)) : Nat :=
  (procs.map (fun o => o.getD 0)).sum

/-- One scheduler step of the pipeline, `B` the batch capacity. -/
inductive DrainStep (B : Nat) : DrainState → DrainState → Prop where
  | readOk (s : DrainState) (rest : List Bool) :
      s.ring = true :: rest → s.ringClosed = false → 0 < s.readers →
      DrainStep B s { s with
                        ring := rest
                        readCount := s.readCount + 1
                        chan := s.chan + 1 }
  | readBad (s : DrainState) (rest : List Bool) :
      s.ring = false :: rest → s.ringClosed = false → 0 < s.readers →
      DrainStep B s { s with
                        ring := rest
                        readCount := s.readCount + 1
                        rejected := s.rejected + 1 }
  | closeRing (s : DrainState) :
      s.ringClosed = false →
      DrainStep B s { s with ringClosed := true }
  | readerExit (s : DrainState) :
      s.ringClosed = true → 0 < s.readers →
      DrainStep B s { s with readers := s.readers - 1 }
  | closeChan (s : DrainState) :
      s.readers = 0 → s.ringClosed = true → s.chanClosed = false →
      DrainStep B s { s with chanClosed := true }
  | consume (s : DrainState) (i b : Nat) :
      s.procs.get? i = some (some b) → 0 < s.chan → b + 1 < B →
      DrainStep B s { s with
                        chan := s.chan - 1
                        procs := s.procs.set i (some (b + 1)) }
  | consumeFlush (s : DrainState) (i b : Nat) :
      s.procs.get? i = some (some b) → 0 < s.chan → B ≤ b + 1 →
      DrainStep B s { s with
                        chan := s.chan - 1
                        procs := s.procs.set i (some 0)
                        stored := s.stored + (b + 1) }
  | timerFlush (s : DrainState) (i b : Nat) :
      s.procs.get? i = some (some b) →
      DrainStep B s { s with
                        procs := s.procs.set i (some 0)
                        stored := s.stored + b }
  | procExit (s : DrainState) (i b : Nat) :
      s.procs.get? i = some (some b) → s.chanClosed = true → s.chan = 0 →
      DrainStep B s { s with
                        procs := s.procs.set i none
                        stored := s.stored + b }

/-- Start state: full reader and processor pools, empty queue and counters. -/
def DrainInit (N M : Nat) (ring : List Bool) (s : DrainState) : Prop :=
  0 < M ∧ s = { ring := ring
                ringClosed := false
                readers := N
                readCount := 0
                rejected := 0
                chan := 0
                chanClosed := false
                procs := List.replicate M (some 0)
                stored := 0 }

/-- Shutdown complete: every processor worker has exited. -/
def DrainDone (s : DrainState) : Prop := ∀ p ∈ s.procs, p = none

/-- Inductive invariant: counting balance plus the shutdown-ordering facts
needed to make it inductive. -/
def DrainInv (s : DrainState) : Prop :=
  s.readCount = s.rejected + s.stored + s.chan + batchSum s.procs ∧
  (s.chanClosed = true → s.readers = 0) ∧
  ((∃ p ∈ s.procs, p = none) → s.chanClosed = true) ∧
  ((∀ p ∈ s.procs, p = none) → s.chan = 0) ∧
  s.procs ≠ []

/-- Spec-side filter semantics actually implemented by the framed store:
skip the first `Offset` stored positions, then apply the AND of the
constraints, then cap at `Limit`. -/
def pbFilterSpec (f : EventFilter) (evs : List Event) : List Event :=
  let matched := (evs.drop f.offset.toNat).filter (eventMatches f)
  if 0 < f.limit then matched.take f.limit.toNat else matched

/-- Spec-side filter semantics of the textual store (and of the claim):
apply the AND of the constraints, then skip the first `Offset` events that
satisfy them, then cap at `Limit`. -/
def jsonlFilterSpec (f : EventFilter) (evs : List Event) : List Event :=
  let matched := (evs.filter (eventMatches f)).drop f.offset.toNat
  if 0 < f.limit then matched.take f.limit.toNat else matched

instance : DecidableEq (Except String (List Event)) := fun x y =>
  match x, y with
  | .error a, .error b =>
    if h : a = b then isTrue (by rw [h]) else isFalse (by intro hh; cases hh; exact h rfl)
  | .ok a, .ok b =>
    if h : a = b then isTrue (by rw [h]) else isFalse (by intro hh; cases hh; exact h rfl)
  | .error _, .ok _ => isFalse (fun h => Except.noConfusion h)
  | .ok _, .error _ => isFalse (fun h => Except.noConfusion h)

instance (op : WriteOp) : Decidable op.Wf := by
  cases op <;> (unfold WriteOp.Wf; infer_instance)

/-- Concrete events for witnesses and counterexamples (spec scenario S1). -/
def cEv1 : Event := ⟨100, 4, 1, 0, [0, 1, 0, 0, 0]⟩

def cEv2 : Event := ⟨101, 0, 1, 0, [1, 2, 1, 0, 0]⟩

def cEv3 : Event := ⟨102, 5, 2, 0, [1, 102, 0, 0, 0]⟩

/-- A mixed append sequence: single, batch, single (spec scenario S3). -/
def cOps : List WriteOp := [.single cEv1, .batch [cEv2, cEv3], .single cEv2]

/-- A filter with goroutine equality, an offset and no limit. -/
def cF2 : EventFilter := ⟨some 2, none, none, none, 0, 1⟩

/-- A filter with goroutine equality and a limit. -/
def cF1 : EventFilter := ⟨some 1, none, none, none, 2, 0⟩

/-- Start state of the concrete C5 execution. -/
def dInit0 : DrainState := ⟨[true], false, 1, 0, 0, 0, false, [some 0], 0⟩

/-- Final state of the concrete C5 execution. -/
def dFinal : DrainState := ⟨[], true, 0, 1, 0, 0, true, [none], 1⟩

theorem varintEncodeF_fuel :
    ∀ (fuel fuel2 n : Nat), n ≤ fuel → n ≤ fuel2 →
      varintEncodeF fuel n = varintEncodeF fuel2 n := by
  intro fuel
  induction fuel with
  | zero =>
    intro fuel2 n h1 _
    have : n = 0 := by omega
    subst this
    cases fuel2 <;> simp [varintEncodeF]
  | succ fuel ih =>
    intro fuel2 n h1 h2
    cases fuel2 with
    | zero =>
      have : n = 0 := by omega
      subst this
      simp [varintEncodeF]
    | succ fuel2 =>
      simp only [varintEncodeF]
      split
      · rfl
      · rename_i h
        have hd : n / 128 ≤ fuel := by
          have := Nat.div_lt_self (by omega : 0 < n) (by omega : 1 < 128)
          omega
        have hd2 : n / 128 ≤ fuel2 := by
          have := Nat.div_lt_self (by omega : 0 < n) (by omega : 1 < 128)
          omega
        rw [ih fuel2 (n / 128) hd hd2]

/-- The fuelled encoder satisfies the intended recursion. -/
theorem varintEncode_unfold (n : Nat) :
    varintEncode n = if n < 128 then [n] else (128 + n % 128) :: varintEncode (n / 128) := by
  unfold varintEncode
  cases hn : n with
  | zero => simp [varintEncodeF]
  | succ k =>
    simp only [varintEncodeF]
    split
    · rfl
    · rename_i h
      have hd : n / 128 ≤ k := by
        have := Nat.div_lt_self (by omega : 0 < n) (by omega : 1 < 128)
        omega
      rw [hn] at hd
      rw [varintEncodeF_fuel k ((k + 1) / 128) ((k + 1) / 128) hd (le_refl _)]

theorem varintEncode_ne_nil (n : Nat) : varintEncode n ≠ [] := by
  rw [varintEncode_unfold]
  split <;> simp

/-- Decoding inverts encoding, with any continuation bytes left untouched. -/
theorem varintDecode_encode (n : Nat) (t : List Nat) :
    varintDecode (varintEncode n ++ t) = some (n, t) := by
  induction n using Nat.strong_induction_on with
  | _ n ih =>
    rw [varintEncode_unfold]
    split
    · simp [varintDecode, *]
    · rename_i h
      have hrec := ih (n / 128) (Nat.div_lt_self (by omega) (by omega))
      simp only [List.cons_append, varintDecode]
      have hge : ¬ (128 + n % 128 < 128) := by omega
      simp only [hge, if_false, List.append_eq, hrec, Option.map_some']
      have : 128 + n % 128 - 128 + 128 * (n / 128) = n := by omega
      rw [this]

/-- A successful varint decode consumes at least one byte. -/
theorem varintDecode_length {bs rest : List Nat} {v : Nat}
    (h : varintDecode bs = some (v, rest)) : rest.length < bs.length := by
  induction bs generalizing v rest with
  | nil => exact Option.noConfusion h
  | cons b bs ih =>
    simp only [varintDecode] at h
    split at h
    · cases h; simp
    · cases hrec : varintDecode bs with
      | none => rw [hrec] at h; simp at h
      | some vr =>
        rw [hrec] at h
        simp only [Option.map_some'] at h
        cases h
        have := ih hrec
        simp only [List.length_cons]
        omega

/-- Varints of values below `128 ^ (k + 1)` take at most `k + 1` bytes. -/
theorem varintEncode_length_le (k n : Nat) (h : n < 128 ^ (k + 1)) :
    (varintEncode n).length ≤ k + 1 := by
  induction k generalizing n with
  | zero =>
    rw [varintEncode_unfold]
    split
    · simp
    · simp at h; omega
  | succ k ih =>
    rw [varintEncode_unfold]
    split
    · simp
    · rename_i hn
      have hdiv : n / 128 < 128 ^ (k + 1) := by
        rw [Nat.div_lt_iff_lt_mul (by omega)]
        calc n < 128 ^ (k + 1 + 1) := h
        _ = 128 ^ (k + 1) * 128 := by ring
      simpa using ih (n / 128) hdiv

/-! ## Protobuf message encoding for `RuntimeEvent` / `RuntimeEventBatch`

The framed store marshals `RuntimeEvent` messages (fields `timestamp = 1`,
`event_type = 2`, `goroutine = 3`, `parent_goroutine = 4`,
`attributes = 5` packed repeated) and `RuntimeEventBatch` (field
`events = 1`, repeated message).  The generated Go message code is not in
the source tree; the proto3 wire behaviour (zero-valued scalars and empty
lists omitted, unknown fields skipped) is modelled here. -/

theorem protoPacked_length_ge (vs : List Nat) :
    vs.length ≤ (protoPacked vs).length := by
  induction vs with
  | nil => simp [protoPacked]
  | cons v vs ih =>
    simp only [protoPacked, List.map_cons, List.flatten_cons, List.length_append,
      List.length_cons]
    have := varintEncode_ne_nil v
    have : 1 ≤ (varintEncode v).length := by
      cases hE : varintEncode v with
      | nil => exact absurd hE (varintEncode_ne_nil v)
      | cons _ _ => simp
    simp only [protoPacked] at ih
    omega

/-- Packed decoding inverts packed encoding given enough fuel. -/
theorem protoDecodePacked_encode (vs : List Nat) :
    ∀ fuel, vs.length ≤ fuel →
      protoDecodePacked fuel (protoPacked vs) = some vs := by
  induction vs with
  | nil => intro fuel _; cases fuel <;> simp [protoPacked, protoDecodePacked]
  | cons v vs ih =>
    intro fuel hfuel
    cases fuel with
    | zero => simp at hfuel
    | succ fuel =>
      have hne := varintEncode_ne_nil v
      obtain ⟨b, bs, hE⟩ := List.exists_cons_of_ne_nil hne
      have hstream : protoPacked (v :: vs) = b :: (bs ++ protoPacked vs) := by
        simp [protoPacked, hE]
      rw [hstream]
      have hdec : varintDecode (b :: (bs ++ protoPacked vs)) = some (v, protoPacked vs) := by
        have := varintDecode_encode v (protoPacked vs)
        rw [hE] at this
        simpa using this
      simp only [protoDecodePacked, hdec]
      rw [ih fuel (by simpa using hfuel)]
      simp

/-- Decoding one encoded field consumes one fuel unit and applies the field. -/
theorem protoDecodeFields_item (it : FieldItem) (hwf : it.Wf) (fuel : Nat)
    (tail : List Nat) (m : RuntimeEvent) :
    protoDecodeFields (fuel + 1) (itemBytes it ++ tail) m =
      protoDecodeFields fuel tail (itemApply it m) := by
  cases it with
  | scalar f v =>
    simp only [FieldItem.Wf] at hwf
    have hstream : itemBytes (.scalar f v) ++ tail =
        (f * 8) :: (varintEncode v ++ tail) := by
      simp [itemBytes]
    rw [hstream]
    have htag : varintDecode ((f * 8) :: (varintEncode v ++ tail)) =
        some (f * 8, varintEncode v ++ tail) := by
      simp [varintDecode, hwf]
    simp only [protoDecodeFields, htag]
    have hmod : f * 8 % 8 = 0 := by omega
    have hdiv : f * 8 / 8 = f := by omega
    simp [hmod, hdiv, varintDecode_encode, itemApply]
  | packed vs =>
    have hstream : itemBytes (.packed vs) ++ tail =
        42 :: (varintEncode (protoPacked vs).length ++ (protoPacked vs ++ tail)) := by
      simp [itemBytes]
    rw [hstream]
    have htag : varintDecode
        (42 :: (varintEncode (protoPacked vs).length ++ (protoPacked vs ++ tail))) =
        some (42, varintEncode (protoPacked vs).length ++ (protoPacked vs ++ tail)) := by
      simp [varintDecode]
    simp only [protoDecodeFields, htag, varintDecode_encode]
    have hlen : (protoPacked vs).length ≤ (protoPacked vs ++ tail).length := by
      simp
    have htake : (protoPacked vs ++ tail).take (protoPacked vs).length = protoPacked vs :=
      List.take_left _ _
    have hdrop : (protoPacked vs ++ tail).drop (protoPacked vs).length = tail :=
      List.drop_left _ _
    have hpk : protoDecodePacked ((protoPacked vs ++ tail).take (protoPacked vs).length).length
        ((protoPacked vs ++ tail).take (protoPacked vs).length) = some vs := by
      rw [htake]
      exact protoDecodePacked_encode vs _ (protoPacked_length_ge vs)
    rw [htake] at hpk
    norm_num [hlen, hpk, hdrop, itemApply]

/-- Decoding a list of encoded fields folds their effects, with fuel one per
field. -/
theorem protoDecodeFields_items (items : List FieldItem)
    (hwf : ∀ it ∈ items, it.Wf) (fuel : Nat) (tail : List Nat) (m : RuntimeEvent) :
    protoDecodeFields (fuel + items.length) ((items.map itemBytes).flatten ++ tail) m =
      protoDecodeFields fuel tail (items.foldl (fun acc it => itemApply it acc) m) := by
  induction items generalizing m with
  | nil => simp
  | cons it items ih =>
    have hit : it.Wf := hwf it (by simp)
    have hrest : ∀ x ∈ items, x.Wf := fun x hx => hwf x (by simp [hx])
    simp only [List.map_cons, List.flatten_cons, List.append_assoc, List.length_cons,
      List.foldl_cons]
    have : fuel + (items.length + 1) = (fuel + items.length) + 1 := by omega
    rw [this, protoDecodeFields_item it hit (fuel + items.length)
      ((items.map itemBytes).flatten ++ tail) m, ih hrest (itemApply it m)]

theorem protoEventItems_wf (m : RuntimeEvent) :
    ∀ it ∈ protoEventItems m, it.Wf := by
  intro it hit
  have hsub : it = FieldItem.scalar 1 m.timestamp ∨ it = .scalar 2 m.eventType ∨
      it = .scalar 3 m.goroutine ∨ it = .scalar 4 m.parentGoroutine ∨
      it = .packed m.attributes := by
    simp only [protoEventItems, List.mem_append] at hit
    rcases hit with ((((h | h) | h) | h) | h) <;> split_ifs at h <;> simp_all
  rcases hsub with h | h | h | h | h <;> subst h <;> simp [FieldItem.Wf]

theorem itemBytes_length_pos (it : FieldItem) : 1 ≤ (itemBytes it).length := by
  cases it <;> simp [itemBytes]

theorem protoEventItems_length_le (m : RuntimeEvent) :
    (protoEventItems m).length ≤ (protoEncodeEvent m).length := by
  unfold protoEncodeEvent
  generalize protoEventItems m = items
  induction items with
  | nil => simp
  | cons it items ih =>
    simp only [List.map_cons, List.flatten_cons, List.length_append, List.length_cons]
    have := itemBytes_length_pos it
    omega

theorem protoEventItems_foldl (m : RuntimeEvent) :
    (protoEventItems m).foldl (fun acc it => itemApply it acc) ⟨0, 0, 0, 0, []⟩ = m := by
  obtain ⟨t, e, g, p, a⟩ := m
  simp only [protoEventItems]
  split_ifs <;>
    simp_all [itemApply, protoSetField]

/-- `proto.Unmarshal` inverts `proto.Marshal` on `RuntimeEvent`. -/
theorem protoDecodeEvent_encode (m : RuntimeEvent) :
    protoDecodeEvent (protoEncodeEvent m) = some m := by
  unfold protoDecodeEvent
  have hle := protoEventItems_length_le m
  have hsplit : (protoEncodeEvent m).length =
      ((protoEncodeEvent m).length - (protoEventItems m).length) +
        (protoEventItems m).length := by omega
  rw [hsplit]
  have hstream : protoEncodeEvent m = ((protoEventItems m).map itemBytes).flatten ++ [] := by
    simp [protoEncodeEvent]
  conv_lhs => rw [hstream]
  rw [protoDecodeFields_items (protoEventItems m) (protoEventItems_wf m) _ [] _]
  rw [protoEventItems_foldl m]
  simp [protoDecodeFields]

/-- Batch decoding inverts batch encoding given fuel for each submessage. -/
theorem protoDecodeBatch_encode (events : List RuntimeEvent) :
    ∀ fuel, events.length ≤ fuel →
      protoDecodeBatch fuel (protoEncodeBatch events) = some events := by
  induction events with
  | nil => intro fuel _; cases fuel <;> simp [protoEncodeBatch, protoDecodeBatch]
  | cons ev events ih =>
    intro fuel hfuel
    cases fuel with
    | zero => simp at hfuel
    | succ fuel =>
      have hstream : protoEncodeBatch (ev :: events) =
          10 :: (varintEncode (protoEncodeEvent ev).length ++
            (protoEncodeEvent ev ++ protoEncodeBatch events)) := by
        simp [protoEncodeBatch]
      rw [hstream]
      have htag : varintDecode (10 :: (varintEncode (protoEncodeEvent ev).length ++
          (protoEncodeEvent ev ++ protoEncodeBatch events))) =
          some (10, varintEncode (protoEncodeEvent ev).length ++
            (protoEncodeEvent ev ++ protoEncodeBatch events)) := by
        simp [varintDecode]
      simp only [protoDecodeBatch, htag, varintDecode_encode]
      have hlen : (protoEncodeEvent ev).length ≤
          (protoEncodeEvent ev ++ protoEncodeBatch events).length := by simp
      have htake : (protoEncodeEvent ev ++ protoEncodeBatch events).take
          (protoEncodeEvent ev).length = protoEncodeEvent ev := List.take_left _ _
      have hdrop : (protoEncodeEvent ev ++ protoEncodeBatch events).drop
          (protoEncodeEvent ev).length = protoEncodeBatch events := List.drop_left _ _
      rw [if_pos hlen]
      norm_num [htake, hdrop, protoDecodeEvent_encode ev, ih fuel (by simpa using hfuel)]

/-! ## Framed store (`ProtobufStore`, the unnamed storage source file)

`WriteEvent` frames one marshalled event behind a 4-byte little-endian
length; `WriteBatch` frames a marshalled `RuntimeEventBatch` behind the
`0xFFFFFFFF` sentinel plus a 4-byte length; `ReadEvents` re-opens the
events file and dispatches on the leading `uint32`. -/

theorem convertFromProto_eventToProto (e : Event) (h5 : e.attributes.length = 5) :
    convertFromProto (eventToProto e) = e := by
  cases e
  simp_all [convertFromProto, eventToProto]

theorem readU32_putUint32LE (n : Nat) (h : n < 4294967296) :
    readU32 (n % 256) (n / 256 % 256) (n / 65536 % 256) (n / 16777216 % 256) = n := by
  unfold readU32
  omega

theorem pbBatchInclude_ref (es : List Event) :
    ∀ filter offset events, (∀ e ∈ es, e.attributes.length = 5) →
      pbBatchInclude filter (es.map eventToProto) offset events =
        pbBatchRef filter es offset events := by
  induction es with
  | nil => intro filter offset events _; simp [pbBatchInclude, pbBatchRef]
  | cons e es ih =>
    intro filter offset events h5
    have hconv : convertFromProto (eventToProto e) = e :=
      convertFromProto_eventToProto e (h5 e (by simp))
    simp only [List.map_cons, pbBatchInclude, pbBatchRef, hconv]
    split <;> split <;>
      first
        | rfl
        | exact ih filter (offset + 1) _ (fun x hx => h5 x (by simp [hx]))

theorem pbScanModel_append (es tail : List Event) :
    ∀ filter offset events,
      pbScanModel filter (es ++ tail) offset events =
        (let r := pbBatchRef filter es offset events
         if r.2.2 then r.2.1 else pbScanModel filter tail r.1 r.2.1) := by
  induction es with
  | nil => intro filter offset events; simp [pbBatchRef]
  | cons e es ih =>
    intro filter offset events
    simp only [List.cons_append, pbScanModel, pbBatchRef]
    split <;> split
    · simp
    · simpa using ih filter (offset + 1) _
    · simp
    · simpa using ih filter (offset + 1) _

theorem protoEncodeBatch_length_ge (evs : List RuntimeEvent) :
    evs.length ≤ (protoEncodeBatch evs).length := by
  induction evs with
  | nil => simp [protoEncodeBatch]
  | cons ev evs ih =>
    simp only [protoEncodeBatch, List.map_cons, List.flatten_cons, List.length_append,
      List.length_cons]
    simp only [protoEncodeBatch] at ih
    omega

theorem protoPacked_length_le (vs : List Nat) (h : ∀ a ∈ vs, a < 2 ^ 64) :
    (protoPacked vs).length ≤ 10 * vs.length := by
  induction vs with
  | nil => simp [protoPacked]
  | cons v vs ih =>
    have hv : v < 128 ^ (9 + 1) := by
      have := h v (by simp)
      have hlt : (2 : Nat) ^ 64 ≤ 128 ^ 10 := by norm_num
      omega
    have h1 := varintEncode_length_le 9 v hv
    have h2 := ih (fun a ha => h a (by simp [ha]))
    simp only [protoPacked, List.map_cons, List.flatten_cons, List.length_append,
      List.length_cons]
    simp only [protoPacked] at h2
    omega

/-- A well-formed single event marshals to at most 96 bytes (far below the
`0xFFFFFFFF` batch sentinel). -/
theorem protoEncodeEvent_length_le (e : Event) (h : e.Wf) :
    (protoEncodeEvent (eventToProto e)).length ≤ 96 := by
  obtain ⟨hts, het, hg, hp, h5, hattr⟩ := h
  have hpow : (2 : Nat) ^ 64 ≤ 128 ^ 10 := by norm_num
  have hv1 := varintEncode_length_le 9 e.timestamp (by omega)
  have hv2 := varintEncode_length_le 9 e.eventType (by omega)
  have hv3 := varintEncode_length_le 9 e.goroutine (by omega)
  have hv4 := varintEncode_length_le 9 e.parentGoroutine (by omega)
  have hpk : (protoPacked e.attributes).length ≤ 50 := by
    have := protoPacked_length_le e.attributes hattr
    omega
  have hpkv : (varintEncode (protoPacked e.attributes).length).length ≤ 1 := by
    have := varintEncode_length_le 0 (protoPacked e.attributes).length (by omega)
    omega
  unfold protoEncodeEvent protoEventItems eventToProto
  split_ifs <;> simp [itemBytes] <;> omega

/-- The frame loop over a writer-produced stream — any interleaving of
single and batch frames — equals the include/limit scan over the appended
events, for every filter.  Fuel one per frame suffices. -/
theorem pbReadLoop_ops (ops : List WriteOp) (hwf : ∀ op ∈ ops, op.Wf) :
    ∀ fuel, ops.length ≤ fuel → ∀ filter offset events,
      pbReadLoop fuel (opsBytes ops) filter offset events =
        .ok (pbScanModel filter (opsEvents ops) offset events) := by
  induction ops with
  | nil =>
    intro fuel _ filter offset events
    cases fuel <;> simp [opsBytes, opsEvents, pbReadLoop, pbScanModel]
  | cons op ops ih =>
    intro fuel hfuel filter offset events
    cases fuel with
    | zero => simp at hfuel
    | succ fuel =>
      have hop : op.Wf := hwf op (by simp)
      have hops : ∀ x ∈ ops, x.Wf := fun x hx => hwf x (by simp [hx])
      have ihf := ih hops fuel (by simpa using hfuel)
      cases op with
      | single e =>
        have h5 : e.attributes.length = 5 := hop.2.2.2.2.1
        have hL : (protoEncodeEvent (eventToProto e)).length ≤ 96 :=
          protoEncodeEvent_length_le e hop
        have hstream : opsBytes (WriteOp.single e :: ops) =
            ((protoEncodeEvent (eventToProto e)).length % 256) ::
            ((protoEncodeEvent (eventToProto e)).length / 256 % 256) ::
            ((protoEncodeEvent (eventToProto e)).length / 65536 % 256) ::
            ((protoEncodeEvent (eventToProto e)).length / 16777216 % 256) ::
            (protoEncodeEvent (eventToProto e) ++ opsBytes ops) := by
          simp [opsBytes, opBytes, frameSingle, putUint32LE]
        rw [hstream]
        have hread := readU32_putUint32LE (protoEncodeEvent (eventToProto e)).length
          (by omega)
        have hne : readU32 ((protoEncodeEvent (eventToProto e)).length % 256)
            ((protoEncodeEvent (eventToProto e)).length / 256 % 256)
            ((protoEncodeEvent (eventToProto e)).length / 65536 % 256)
            ((protoEncodeEvent (eventToProto e)).length / 16777216 % 256) ≠ 4294967295 := by
          rw [hread]; omega
        have hle : (protoEncodeEvent (eventToProto e)).length ≤
            (protoEncodeEvent (eventToProto e) ++ opsBytes ops).length := by simp
        have htake : (protoEncodeEvent (eventToProto e) ++ opsBytes ops).take
            (protoEncodeEvent (eventToProto e)).length = protoEncodeEvent (eventToProto e) :=
          List.take_left _ _
        have hdrop : (protoEncodeEvent (eventToProto e) ++ opsBytes ops).drop
            (protoEncodeEvent (eventToProto e)).length = opsBytes ops :=
          List.drop_left _ _
        have hconv : convertFromProto (eventToProto e) = e :=
          convertFromProto_eventToProto e h5
        have hev : opsEvents (WriteOp.single e :: ops) = e :: opsEvents ops := by
          simp [opsEvents, opEvents]
        rw [hev]
        simp only [pbReadLoop, hread]
        rw [if_neg (by omega : ¬ ((protoEncodeEvent (eventToProto e)).length = 4294967295))]
        rw [if_pos hle, htake]
        simp only [protoDecodeEvent_encode, hdrop, hconv, pbScanModel]
        by_cases hlim : limitReached filter
            (if shouldIncludeEvent (eventToProto e) filter offset events.length = true then
              events ++ [e] else events).length = true <;>
          simp [hlim, ihf]
      | batch es =>
        obtain ⟨hesWf, hblen⟩ := hop
        have h5 : ∀ x ∈ es, x.attributes.length = 5 := fun x hx => (hesWf x hx).2.2.2.2.1
        have hstream : opsBytes (WriteOp.batch es :: ops) =
            255 :: 255 :: 255 :: 255 ::
            (((protoEncodeBatch (es.map eventToProto)).length % 256) ::
             ((protoEncodeBatch (es.map eventToProto)).length / 256 % 256) ::
             ((protoEncodeBatch (es.map eventToProto)).length / 65536 % 256) ::
             ((protoEncodeBatch (es.map eventToProto)).length / 16777216 % 256) ::
             (protoEncodeBatch (es.map eventToProto) ++ opsBytes ops)) := by
          simp [opsBytes, opBytes, frameBatch, putUint32LE]
        rw [hstream]
        have hsent : readU32 255 255 255 255 = 4294967295 := by decide
        have hread := readU32_putUint32LE (protoEncodeBatch (es.map eventToProto)).length
          (by omega)
        have hle : (protoEncodeBatch (es.map eventToProto)).length ≤
            (protoEncodeBatch (es.map eventToProto) ++ opsBytes ops).length := by simp
        have htake : (protoEncodeBatch (es.map eventToProto) ++ opsBytes ops).take
            (protoEncodeBatch (es.map eventToProto)).length =
              protoEncodeBatch (es.map eventToProto) := List.take_left _ _
        have hdrop : (protoEncodeBatch (es.map eventToProto) ++ opsBytes ops).drop
            (protoEncodeBatch (es.map eventToProto)).length = opsBytes ops :=
          List.drop_left _ _
        have hdec : protoDecodeBatchTop (protoEncodeBatch (es.map eventToProto)) =
            some (es.map eventToProto) := by
          unfold protoDecodeBatchTop
          exact protoDecodeBatch_encode (es.map eventToProto) _
            (by simpa using protoEncodeBatch_length_ge (es.map eventToProto))
        have hev : opsEvents (WriteOp.batch es :: ops) = es ++ opsEvents ops := by
          simp [opsEvents, opEvents]
        rw [hev]
        simp only [pbReadLoop, hsent, if_pos, hread, hle, if_true, htake, hdrop, hdec,
          pbBatchInclude_ref es filter offset events h5,
          pbScanModel_append es (opsEvents ops) filter offset events]
        split
        · rename_i heq
          rw [heq]
          simp
        · rename_i heq
          rw [heq]
          simp [ihf]

/-- Away from the offset-skip region, `shouldIncludeEvent` is exactly the
AND of the four value constraints. -/
theorem shouldIncludeEvent_noskip (f : EventFilter) (e : Event) (offset n : Nat)
    (h : ¬ (0 < f.offset ∧ (offset : Int) < f.offset)) :
    shouldIncludeEvent (eventToProto e) (some f) offset n = eventMatches f e := by
  simp only [shouldIncludeEvent, eventToProto, eventMatches]
  rw [if_neg h]
  rcases f.goroutine with _ | g <;> rcases f.eventType with _ | t <;>
    rcases f.startTime with _ | lo <;> rcases f.endTime with _ | hi <;>
    split_ifs <;>
    simp_all [decide_eq_true_eq]

/-- In the offset-skip region `shouldIncludeEvent` rejects. -/
theorem shouldIncludeEvent_skip (r : RuntimeEvent) (f : EventFilter) (offset n : Nat)
    (h : 0 < f.offset ∧ (offset : Int) < f.offset) :
    shouldIncludeEvent r (some f) offset n = false := by
  simp only [shouldIncludeEvent]
  rw [if_pos h]

/-- Unfiltered scans keep every event in order. -/
theorem pbScanModel_none (evs : List Event) :
    ∀ (offset : Nat) (events : List Event),
      pbScanModel none evs offset events = events ++ evs := by
  induction evs with
  | nil => intro offset events; simp [pbScanModel]
  | cons e evs ih =>
    intro offset events
    simp [pbScanModel, shouldIncludeEvent, limitReached, ih]

/-- Closed form of the framed store's filtered scan: drop the first
`Offset` stored positions, filter, then cap at `Limit`. -/
theorem pbScanModel_closed (f : EventFilter) (evs : List Event) :
    ∀ (offset : Nat) (events : List Event),
      ¬ (0 < f.limit ∧ f.limit ≤ (events.length : Int)) →
      pbScanModel (some f) evs offset events =
        events ++
          (if 0 < f.limit then
            ((evs.drop (f.offset - (offset : Int)).toNat).filter (eventMatches f)).take
              (f.limit - (events.length : Int)).toNat
          else (evs.drop (f.offset - (offset : Int)).toNat).filter (eventMatches f)) := by
  induction evs with
  | nil =>
    intro offset events _
    simp [pbScanModel]
  | cons e evs ih =>
    intro offset events hnl
    by_cases hskip : 0 < f.offset ∧ (offset : Int) < f.offset
    · have hinc := shouldIncludeEvent_skip (eventToProto e) f offset events.length hskip
      have hlr : limitReached (some f) events.length = false := by
        simp only [limitReached, decide_eq_false_iff_not]
        exact hnl
      simp only [pbScanModel, hinc, if_false, Bool.false_eq_true, hlr]
      rw [ih (offset + 1) events hnl]
      have hdropEq : ((e :: evs).drop (f.offset - (offset : Int)).toNat) =
          evs.drop (f.offset - ((offset : Nat) + 1 : Nat) : Int).toNat := by
        have h1 : (f.offset - (offset : Int)).toNat =
            (f.offset - ((offset : Nat) + 1 : Nat) : Int).toNat + 1 := by
          push_cast
          omega
        rw [h1]
        simp
      rw [hdropEq]
    · have hinc := shouldIncludeEvent_noskip f e offset events.length hskip
      have hdrop0 : (f.offset - (offset : Int)).toNat = 0 := by omega
      have hdrop1 : (f.offset - ((offset : Nat) + 1 : Nat) : Int).toNat = 0 := by
        push_cast
        omega
      have hlr : limitReached (some f) events.length = false := by
        simp only [limitReached, decide_eq_false_iff_not]
        exact hnl
      by_cases hm : eventMatches f e = true
      · simp only [pbScanModel, hinc, hm, if_true]
        by_cases hfull : limitReached (some f) (events ++ [e]).length = true
        · have hlim : 0 < f.limit ∧ f.limit ≤ ((events.length : Int) + 1) := by
            simpa [limitReached] using hfull
          rw [if_pos hfull]
          have hone : (f.limit - (events.length : Int)).toNat = 1 := by omega
          rw [if_pos hlim.1, hdrop0]
          simp [hm, hone]
        · rw [if_neg hfull]
          have hnl2 : ¬ (0 < f.limit ∧ f.limit ≤ ((events ++ [e]).length : Int)) := by
            simpa [limitReached] using hfull
          rw [ih (offset + 1) (events ++ [e]) hnl2]
          rw [hdrop0, hdrop1]
          simp only [List.drop_zero, List.filter_cons, hm, if_true]
          by_cases hpos : 0 < f.limit
          · rw [if_pos hpos, if_pos hpos]
            have hgt : (events.length : Int) + 1 < f.limit ∨ f.limit ≤ (events.length : Int) + 1 := by
              omega
            have hlt : (events.length : Int) + 1 < f.limit := by
              rcases hgt with h | h
              · exact h
              · exact absurd ⟨hpos, by
                  simp only [List.length_append, List.length_cons, List.length_nil]
                  push_cast
                  omega⟩ hnl2
            have htk : (f.limit - (events.length : Int)).toNat =
                (f.limit - ((events ++ [e]).length : Int)).toNat + 1 := by
              simp only [List.length_append, List.length_cons, List.length_nil]
              push_cast
              omega
            rw [htk]
            simp [List.take_succ_cons]
          · rw [if_neg hpos, if_neg hpos]
            simp
      · have hm2 : eventMatches f e = false := by
          simpa using hm
        simp only [pbScanModel, hinc, hm2, Bool.false_eq_true, if_false, hlr]
        rw [ih (offset + 1) events hnl]
        rw [hdrop0, hdrop1]
        simp [List.filter_cons, hm2]

theorem opBytes_length_ge (op : WriteOp) : 1 ≤ (opBytes op).length := by
  cases op <;> simp [opBytes, frameSingle, frameBatch, putUint32LE]

theorem opsBytes_length_ge (ops : List WriteOp) :
    ops.length ≤ (opsBytes ops).length := by
  induction ops with
  | nil => simp [opsBytes]
  | cons op ops ih =>
    simp only [opsBytes, List.map_cons, List.flatten_cons, List.length_append,
      List.length_cons]
    have := opBytes_length_ge op
    simp only [opsBytes] at ih
    omega

/-- On a healthy store, appends accumulate exactly the frame bytes, and the
counter counts the appended events. -/
theorem pbApplyOps_healthy (ops : List WriteOp) :
    ∀ s : ProtobufStore, s.fileFailing = false →
      (pbApplyOps s ops).fileFailing = false ∧
      (pbApplyOps s ops).fileData ++ (pbApplyOps s ops).buffer =
        s.fileData ++ s.buffer ++ opsBytes ops ∧
      (pbApplyOps s ops).eventCount = s.eventCount + (opsEvents ops).length := by
  induction ops with
  | nil => intro s hs; simp [pbApplyOps, opsBytes, opsEvents, hs]
  | cons op ops ih =>
    intro s hs
    cases op with
    | single e =>
      have := ih (pbWriteEvent s e) (by simp [pbWriteEvent, hs])
      simpa [pbApplyOps, pbWriteEvent, hs, opsBytes, opsEvents, opBytes, opEvents,
        Nat.add_assoc, Nat.add_comm, Nat.add_left_comm] using this
    | batch es =>
      have hwb : (pbWriteBatch s es).1 =
          { s with
              fileData := s.fileData ++ (s.buffer ++ frameBatch es)
              buffer := []
              eventCount := s.eventCount + es.length } := by
        simp [pbWriteBatch, pbFlush, hs]
      have := ih (pbWriteBatch s es).1 (by simp [hwb, hs])
      rw [hwb] at this
      simpa [pbApplyOps, hwb, opsBytes, opsEvents, opBytes, opEvents, Nat.add_assoc,
        Nat.add_comm, Nat.add_left_comm] using this

/-- Appending through any mix of `WriteEvent`/`WriteBatch` to a fresh
healthy framed store and scanning after the closing flush returns exactly
the appended events, in order. -/
theorem pb_append_close_scan (ops : List WriteOp) (hwf : ∀ op ∈ ops, op.Wf) :
    pbReadEvents (pbClose (pbApplyOps ProtobufStore.new ops)).1 none =
      .ok (opsEvents ops) := by
  obtain ⟨hok, hdata, _⟩ := pbApplyOps_healthy ops ProtobufStore.new rfl
  have hclose : (pbClose (pbApplyOps ProtobufStore.new ops)).1.fileData = opsBytes ops := by
    simp only [pbClose, pbFlush, hok]
    simpa [ProtobufStore.new] using hdata
  simp only [pbReadEvents, pbReadEventsBytes, hclose]
  rw [pbReadLoop_ops ops hwf (opsBytes ops).length (opsBytes_length_ge ops) none 0 []]
  rw [pbScanModel_none]
  simp

/-! ## Textual store (`JSONLStore`, `storage/jsonl.go`)

One JSON object per newline-terminated line.  `encoding/json` is library
code, so lines are modelled at the JSON-value level: a line either carries
a JSON value or is malformed (e.g. a truncated final record). -/

theorem except_bind_ok {α β : Type} (a : α) (f : α → Except String β) :
    (Except.ok a >>= f : Except String β) = f a := rfl

theorem jsonNums_map (vs : List Nat) :
    jsonNums (vs.map Json.num) = Except.ok vs := by
  induction vs with
  | nil => rfl
  | cons v vs ih => simp [jsonNums, jsonNumToNat, ih, except_bind_ok]

/-- `json.Unmarshal` inverts `json.Marshal` on well-shaped events. -/
theorem jsonUnmarshalEvent_marshal (e : Event) (h5 : e.attributes.length = 5) :
    jsonUnmarshalEvent (jsonMarshalEvent e) = .ok e := by
  obtain ⟨t, et, g, pg, a⟩ := e
  simp only at h5
  simp [jsonMarshalEvent, jsonUnmarshalEvent, List.lookup, jsonNums_map, jsonNumToNat,
    except_bind_ok, h5]

/-- On a healthy textual store every append is flushed; the file holds one
line per appended event and the counter counts them.  The handle mode is
untouched. -/
theorem jsonlApplyOps_healthy (ops : List WriteOp) :
    ∀ s : JSONLStore, s.fileFailing = false → s.buffer = [] →
      (jsonlApplyOps s ops).fileFailing = false ∧
      (jsonlApplyOps s ops).readable = s.readable ∧
      (jsonlApplyOps s ops).buffer = [] ∧
      (jsonlApplyOps s ops).fileLines =
        s.fileLines ++ jsonlLinesOf (opsEvents ops) ∧
      (jsonlApplyOps s ops).eventCount = s.eventCount + (opsEvents ops).length := by
  induction ops with
  | nil => intro s hs hb; simp [jsonlApplyOps, jsonlLinesOf, opsEvents, hs, hb]
  | cons op ops ih =>
    intro s hs hb
    cases op with
    | single e =>
      have hwe : (jsonlWriteEvent s e).1 =
          { s with
              fileLines := s.fileLines ++ (s.buffer ++ [JLine.good (jsonMarshalEvent e)])
              buffer := []
              eventCount := s.eventCount + 1 } := by
        simp [jsonlWriteEvent, jsonlFlush, hs]
      have := ih (jsonlWriteEvent s e).1 (by simp [hwe, hs]) (by simp [hwe])
      rw [hwe] at this
      simpa [jsonlApplyOps, hwe, hb, jsonlLinesOf, opsEvents, opEvents, Nat.add_assoc,
        Nat.add_comm, Nat.add_left_comm] using this
    | batch es =>
      have hwb : (jsonlWriteBatch s es).1 =
          { s with
              fileLines := s.fileLines ++
                (s.buffer ++ es.map (fun e => JLine.good (jsonMarshalEvent e)))
              buffer := []
              eventCount := s.eventCount + es.length } := by
        simp [jsonlWriteBatch, jsonlFlush, hs]
      have := ih (jsonlWriteBatch s es).1 (by simp [hwb, hs]) (by simp [hwb])
      rw [hwb] at this
      simpa [jsonlApplyOps, hwb, hb, jsonlLinesOf, opsEvents, opEvents, Nat.add_assoc,
        Nat.add_comm, Nat.add_left_comm] using this

/-- Unfiltered textual scans return every stored event in order. -/
theorem jsonlScanLines_none (evs : List Event) (h5 : ∀ e ∈ evs, e.attributes.length = 5) :
    ∀ (skipped : Nat) (events : List Event),
      jsonlScanLines (jsonlLinesOf evs) none skipped events = .ok (events ++ evs) := by
  induction evs with
  | nil => intro skipped events; simp [jsonlLinesOf, jsonlScanLines]
  | cons e evs ih =>
    intro skipped events
    have hu := jsonUnmarshalEvent_marshal e (h5 e (by simp))
    simp only [jsonlLinesOf, List.map_cons, jsonlScanLines, hu, jsonlClassify,
      limitReached]
    have ihh := ih (fun x hx => h5 x (by simp [hx])) skipped (events ++ [e])
    simp only [jsonlLinesOf] at ihh
    simp [ihh]

/-- A scan that reaches a malformed (truncated) final line fails outright,
returning none of the earlier well-formed events. -/
theorem jsonlScanLines_malformed_tail (evs : List Event)
    (h5 : ∀ e ∈ evs, e.attributes.length = 5) :
    ∀ (skipped : Nat) (events : List Event),
      jsonlScanLines (jsonlLinesOf evs ++ [JLine.malformed]) none skipped events =
        .error "unmarshal event: invalid character" := by
  induction evs with
  | nil => intro skipped events; simp [jsonlLinesOf, jsonlScanLines]
  | cons e evs ih =>
    intro skipped events
    have hu := jsonUnmarshalEvent_marshal e (h5 e (by simp))
    simp only [jsonlLinesOf, List.map_cons, List.cons_append, jsonlScanLines, hu,
      jsonlClassify, limitReached]
    have ihh := ih (fun x hx => h5 x (by simp [hx])) skipped (events ++ [e])
    simp only [jsonlLinesOf] at ihh
    simp [ihh, List.append_eq]

set_option maxHeartbeats 2000000 in
/-- `jsonlClassify` in terms of the AND of the four constraints: mismatches
drop without touching the skip counter; matching events are skipped while
the counter is below `Offset`, and appended otherwise. -/
theorem jsonlClassify_eq (f : EventFilter) (e : Event) (skipped : Nat) :
    jsonlClassify (some f) e skipped =
      (if eventMatches f e = false then (skipped, false)
       else if 0 < f.offset ∧ (skipped : Int) < f.offset then (skipped + 1, false)
       else (skipped, true)) := by
  obtain ⟨fg, ft, fs, fe, fl, fo⟩ := f
  simp only [jsonlClassify, eventMatches]
  rcases fg with _ | g <;> rcases ft with _ | t <;>
    rcases fs with _ | lo <;> rcases fe with _ | hi <;>
    split_ifs <;> simp_all [decide_eq_true_eq]

/-- Closed form of the textual store's filtered scan: filter, then skip the
first `Offset` matching events, then cap at `Limit`. -/
theorem jsonlScanLines_closed (f : EventFilter) (evs : List Event)
    (h5 : ∀ e ∈ evs, e.attributes.length = 5) :
    ∀ (skipped : Nat) (events : List Event),
      ¬ (0 < f.limit ∧ f.limit ≤ (events.length : Int)) →
      jsonlScanLines (jsonlLinesOf evs) (some f) skipped events =
        .ok (events ++
          (if 0 < f.limit then
            ((evs.filter (eventMatches f)).drop (f.offset - (skipped : Int)).toNat).take
              (f.limit - (events.length : Int)).toNat
          else (evs.filter (eventMatches f)).drop (f.offset - (skipped : Int)).toNat)) := by
  induction evs with
  | nil =>
    intro skipped events _
    simp [jsonlLinesOf, jsonlScanLines]
  | cons e evs ih =>
    intro skipped events hnl
    have hu := jsonUnmarshalEvent_marshal e (h5 e (by simp))
    have h5r : ∀ x ∈ evs, x.attributes.length = 5 := fun x hx => h5 x (by simp [hx])
    simp only [jsonlLinesOf, List.map_cons, jsonlScanLines, hu, jsonlClassify_eq]
    by_cases hm : eventMatches f e = true
    · simp only [hm, Bool.true_eq_false, if_false]
      by_cases hskip : 0 < f.offset ∧ (skipped : Int) < f.offset
      · rw [if_pos hskip]
        have ihh := ih h5r (skipped + 1) events hnl
        simp only [jsonlLinesOf] at ihh
        have hfe : (e :: evs).filter (eventMatches f) = e :: evs.filter (eventMatches f) := by
          simp [List.filter_cons, hm]
        have hdropEq : ((e :: evs).filter (eventMatches f)).drop
            (f.offset - (skipped : Int)).toNat =
            (evs.filter (eventMatches f)).drop
              (f.offset - ((skipped : Nat) + 1 : Nat) : Int).toNat := by
          rw [hfe]
          have h1 : (f.offset - (skipped : Int)).toNat =
              (f.offset - ((skipped : Nat) + 1 : Nat) : Int).toNat + 1 := by
            push_cast
            omega
          rw [h1]
          simp
        show jsonlScanLines (List.map (fun e => JLine.good (jsonMarshalEvent e)) evs)
            (some f) (skipped + 1) events = _
        rw [ihh, hdropEq]
      · rw [if_neg hskip]
        have hdrop0 : (f.offset - (skipped : Int)).toNat = 0 := by omega
        have hdrop1 : (f.offset - ((skipped : Nat) + 1 : Nat) : Int).toNat = 0 := by
          push_cast
          omega
        show (if limitReached (some f) (events ++ [e]).length = true then
            Except.ok (events ++ [e])
          else jsonlScanLines (List.map (fun e => JLine.good (jsonMarshalEvent e)) evs)
            (some f) skipped (events ++ [e])) = _
        by_cases hfull : limitReached (some f) (events ++ [e]).length = true
        · have hlim : 0 < f.limit ∧ f.limit ≤ ((events.length : Int) + 1) := by
            simpa [limitReached] using hfull
          rw [if_pos hfull]
          have hone : (f.limit - (events.length : Int)).toNat = 1 := by omega
          rw [if_pos hlim.1, hdrop0]
          simp [List.filter_cons, hm, hone]
        · rw [if_neg hfull]
          have hnl2 : ¬ (0 < f.limit ∧ f.limit ≤ ((events ++ [e]).length : Int)) := by
            simpa [limitReached] using hfull
          have ihh := ih h5r skipped (events ++ [e]) hnl2
          simp only [jsonlLinesOf] at ihh
          rw [ihh]
          rw [hdrop0]
          simp only [List.drop_zero, List.filter_cons, hm, if_true]
          by_cases hpos : 0 < f.limit
          · rw [if_pos hpos, if_pos hpos]
            have hlt : (events.length : Int) + 1 < f.limit := by
              rcases (by omega :
                  (events.length : Int) + 1 < f.limit ∨ f.limit ≤ (events.length : Int) + 1)
                with h | h
              · exact h
              · exact absurd ⟨hpos, by
                  simp only [List.length_append, List.length_cons, List.length_nil]
                  push_cast
                  omega⟩ hnl2
            have htk : (f.limit - (events.length : Int)).toNat =
                (f.limit - ((events ++ [e]).length : Int)).toNat + 1 := by
              simp only [List.length_append, List.length_cons, List.length_nil]
              push_cast
              omega
            rw [htk]
            simp [List.take_succ_cons]
          · rw [if_neg hpos, if_neg hpos]
            simp
    · have hm2 : eventMatches f e = false := by simpa using hm
      simp only [hm2, if_true]
      have ihh := ih h5r skipped events hnl
      simp only [jsonlLinesOf] at ihh
      show jsonlScanLines (List.map (fun e => JLine.good (jsonMarshalEvent e)) evs)
          (some f) skipped events = _
      rw [ihh]
      simp [List.filter_cons, hm2]

/-! ## Session manager (`storage/manager.go`) -/

theorem get_some_mem {l : List (Option Nat)} {i : Nat} {x : Option Nat}
    (h : l.get? i = some x) : x ∈ l := by
  induction l generalizing i with
  | nil => exact Option.noConfusion h
  | cons p ps ih =>
    cases i with
    | zero => rw [List.get?_cons_zero] at h; simp at h; simp [h]
    | succ i => rw [List.get?_cons_succ] at h; simp [ih h]

theorem mem_set_self {l : List (Option Nat)} {i : Nat} {x : Option Nat}
    (v : Option Nat) (h : l.get? i = some x) : v ∈ l.set i v := by
  induction l generalizing i with
  | nil => exact Option.noConfusion h
  | cons p ps ih =>
    cases i with
    | zero => simp [List.set]
    | succ i => rw [List.get?_cons_succ] at h; simp [List.set, ih h]

theorem batchSum_set {l : List (Option Nat)} {i b : Nat} (v : Option Nat)
    (h : l.get? i = some (some b)) :
    batchSum (l.set i v) + b = batchSum l + v.getD 0 := by
  induction l generalizing i with
  | nil => exact Option.noConfusion h
  | cons p ps ih =>
    cases i with
    | zero =>
      rw [List.get?_cons_zero] at h
      simp at h
      subst h
      simp [batchSum, List.set]
      omega
    | succ i =>
      rw [List.get?_cons_succ] at h
      have := ih h
      simp only [List.set, batchSum, List.map_cons, List.sum_cons]
      simp only [batchSum] at this
      omega

theorem batchSum_allNone {l : List (Option Nat)} (h : ∀ p ∈ l, p = none) :
    batchSum l = 0 := by
  induction l with
  | nil => simp [batchSum]
  | cons p ps ih =>
    have hp := h p (by simp)
    subst hp
    simp only [batchSum, List.map_cons, List.sum_cons, Option.getD_none]
    simpa [batchSum] using ih (fun x hx => h x (by simp [hx]))

theorem set_ne_nil (l : List (Option Nat)) (i : Nat) (v : Option Nat) (h : l ≠ []) :
    l.set i v ≠ [] := by
  cases l with
  | nil => exact absurd rfl h
  | cons p ps => cases i <;> simp [List.set]

/-- If every processor has exited, the readers are already gone. -/
theorem drain_all_none_readers (s : DrainState)
    (h2 : s.chanClosed = true → s.readers = 0)
    (h3 : (∃ p ∈ s.procs, p = none) → s.chanClosed = true)
    (h5 : s.procs ≠ []) (hall : ∀ p ∈ s.procs, p = none) : s.readers = 0 := by
  obtain ⟨p, hp⟩ := List.exists_mem_of_ne_nil s.procs h5
  exact h2 (h3 ⟨p, hp, hall p hp⟩)

/-- The drain invariant is preserved by every pipeline step. -/
theorem drainInv_step {B : Nat} {s t : DrainState} (hstep : DrainStep B s t)
    (hinv : DrainInv s) : DrainInv t := by
  obtain ⟨h1, h2, h3, h4, h5⟩ := hinv
  cases hstep with
  | readOk rest hr hc hrd =>
    refine ⟨by simp; omega, by simpa using h2, by simpa using h3, ?_, by simpa using h5⟩
    intro hall
    exfalso
    have := drain_all_none_readers s h2 h3 h5 (by simpa using hall)
    omega
  | readBad rest hr hc hrd =>
    exact ⟨by simp; omega, by simpa using h2, by simpa using h3,
      fun hall => by simpa using h4 (by simpa using hall), by simpa using h5⟩
  | closeRing hc =>
    exact ⟨by simpa using h1, by simpa using h2, by simpa using h3,
      fun hall => by simpa using h4 (by simpa using hall), by simpa using h5⟩
  | readerExit hc hrd =>
    refine ⟨by simpa using h1, ?_, by simpa using h3,
      fun hall => by simpa using h4 (by simpa using hall), by simpa using h5⟩
    intro hcc
    have := h2 (by simpa using hcc)
    omega
  | closeChan hrd hrc hcc =>
    exact ⟨by simpa using h1, fun _ => by simpa using hrd, fun _ => rfl,
      fun hall => by simpa using h4 (by simpa using hall), by simpa using h5⟩
  | consume i b hget hchan hlt =>
    have hbs := batchSum_set (some (b + 1)) hget
    refine ⟨?_, by simpa using h2, ?_, ?_, by simpa using h5⟩
    · simp only [Option.getD_some] at hbs
      simp
      omega
    · intro hex
      apply h3
      obtain ⟨p, hp, hpn⟩ := hex
      simp only at hp
      rcases List.mem_or_eq_of_mem_set hp with hmem | heq
      · exact ⟨p, hmem, hpn⟩
      · exact absurd (heq ▸ hpn) (by simp)
    · intro hall
      exfalso
      have hmem : (some (b + 1)) ∈ s.procs.set i (some (b + 1)) := mem_set_self _ hget
      have := hall _ (by simpa using hmem)
      simp at this
  | consumeFlush i b hget hchan hge =>
    have hbs := batchSum_set (some 0) hget
    refine ⟨?_, by simpa using h2, ?_, ?_, by simpa using h5⟩
    · simp only [Option.getD_some] at hbs
      simp
      omega
    · intro hex
      apply h3
      obtain ⟨p, hp, hpn⟩ := hex
      simp only at hp
      rcases List.mem_or_eq_of_mem_set hp with hmem | heq
      · exact ⟨p, hmem, hpn⟩
      · exact absurd (heq ▸ hpn) (by simp)
    · intro hall
      exfalso
      have hmem : (some 0) ∈ s.procs.set i (some 0) := mem_set_self _ hget
      have := hall _ (by simpa using hmem)
      simp at this
  | timerFlush i b hget =>
    have hbs := batchSum_set (some 0) hget
    refine ⟨?_, by simpa using h2, ?_, ?_, by simpa using h5⟩
    · simp only [Option.getD_some] at hbs
      simp
      omega
    · intro hex
      apply h3
      obtain ⟨p, hp, hpn⟩ := hex
      simp only at hp
      rcases List.mem_or_eq_of_mem_set hp with hmem | heq
      · exact ⟨p, hmem, hpn⟩
      · exact absurd (heq ▸ hpn) (by simp)
    · intro hall
      exfalso
      have hmem : (some 0) ∈ s.procs.set i (some 0) := mem_set_self _ hget
      have := hall _ (by simpa using hmem)
      simp at this
  | procExit i b hget hcc hch =>
    have hbs := batchSum_set none hget
    refine ⟨?_, by simpa using h2, fun _ => by simpa using hcc, fun _ => by simpa using hch,
      by simpa using h5⟩
    simp only [Option.getD_none] at hbs
    simp
    omega

/-- The invariant holds at every initial state. -/
theorem drainInv_init {N M : Nat} {ring : List Bool} {s : DrainState}
    (h : DrainInit N M ring s) : DrainInv s := by
  obtain ⟨hM, rfl⟩ := h
  refine ⟨?_, by simp, ?_, ?_, ?_⟩
  · simp [batchSum, List.map_replicate]
  · intro hex
    obtain ⟨p, hp, hpn⟩ := hex
    simp only [List.mem_replicate] at hp
    exact absurd (hpn ▸ hp.2) (by simp)
  · intro _
    rfl
  · simp only [ne_eq, List.replicate_eq_nil_iff]
    omega

/-- The invariant holds along every execution. -/
theorem drainInv_steps {B : Nat} {s t : DrainState}
    (h : Relation.ReflTransGen (DrainStep B) s t) (hs : DrainInv s) : DrainInv t := by
  induction h with
  | refl => exact hs
  | tail _ hstep ih => exact drainInv_step hstep ih

/-- After shutdown completes, the store count balances the read count minus
the decode rejections: no event is lost to pipeline shutdown. -/
theorem drain_no_loss {B N M : Nat} {ring : List Bool} {s t : DrainState}
    (hinit : DrainInit N M ring s)
    (hsteps : Relation.ReflTransGen (DrainStep B) s t)
    (hdone : DrainDone t) :
    t.readCount = t.rejected + t.stored ∧ t.stored = t.readCount - t.rejected := by
  have hinv := drainInv_steps hsteps (drainInv_init hinit)
  obtain ⟨h1, _, _, h4, _⟩ := hinv
  have hchan : t.chan = 0 := h4 hdone
  have hbatch : batchSum t.procs = 0 := batchSum_allNone hdone
  constructor
  · omega
  · omega

/-- With no filter, the inner batch loop appends every decoded event. -/
theorem pbBatchInclude_none (rs : List RuntimeEvent) :
    ∀ (offset : Nat) (events : List Event),
      pbBatchInclude none rs offset events =
        (offset + rs.length, events ++ rs.map convertFromProto, false) := by
  induction rs with
  | nil => intro offset events; simp [pbBatchInclude]
  | cons r rs ih =>
    intro offset events
    simp only [pbBatchInclude, shouldIncludeEvent, limitReached, if_true, List.map_cons]
    rw [ih (offset + 1) (events ++ [convertFromProto r])]
    simp
    omega

/-- Unfiltered reading consumes a well-formed frame stream completely and
continues on whatever follows it. -/
theorem pbReadLoop_ops_none_tail (ops : List WriteOp) (hwf : ∀ op ∈ ops, op.Wf) :
    ∀ (fuel : Nat) (tail : List Nat) (offset : Nat) (events : List Event),
      pbReadLoop (fuel + ops.length) (opsBytes ops ++ tail) none offset events =
        pbReadLoop fuel tail none (offset + (opsEvents ops).length)
          (events ++ opsEvents ops) := by
  induction ops with
  | nil => intro fuel tail offset events; simp [opsBytes, opsEvents]
  | cons op ops ih =>
    intro fuel tail offset events
    have hop : op.Wf := hwf op (by simp)
    have hops : ∀ x ∈ ops, x.Wf := fun x hx => hwf x (by simp [hx])
    have hfl : fuel + (op :: ops).length = (fuel + ops.length) + 1 := by simp; omega
    rw [hfl]
    cases op with
    | single e =>
      have h5 : e.attributes.length = 5 := hop.2.2.2.2.1
      have hL : (protoEncodeEvent (eventToProto e)).length ≤ 96 :=
        protoEncodeEvent_length_le e hop
      have hstream : opsBytes (WriteOp.single e :: ops) ++ tail =
          ((protoEncodeEvent (eventToProto e)).length % 256) ::
          ((protoEncodeEvent (eventToProto e)).length / 256 % 256) ::
          ((protoEncodeEvent (eventToProto e)).length / 65536 % 256) ::
          ((protoEncodeEvent (eventToProto e)).length / 16777216 % 256) ::
          (protoEncodeEvent (eventToProto e) ++ (opsBytes ops ++ tail)) := by
        simp [opsBytes, opBytes, frameSingle, putUint32LE]
      rw [hstream]
      have hread := readU32_putUint32LE (protoEncodeEvent (eventToProto e)).length (by omega)
      have hle : (protoEncodeEvent (eventToProto e)).length ≤
          (protoEncodeEvent (eventToProto e) ++ (opsBytes ops ++ tail)).length := by simp
      have htake : (protoEncodeEvent (eventToProto e) ++ (opsBytes ops ++ tail)).take
          (protoEncodeEvent (eventToProto e)).length = protoEncodeEvent (eventToProto e) :=
        List.take_left _ _
      have hdrop : (protoEncodeEvent (eventToProto e) ++ (opsBytes ops ++ tail)).drop
          (protoEncodeEvent (eventToProto e)).length = opsBytes ops ++ tail :=
        List.drop_left _ _
      have hconv : convertFromProto (eventToProto e) = e :=
        convertFromProto_eventToProto e h5
      simp only [pbReadLoop, hread]
      rw [if_neg (by omega : ¬ ((protoEncodeEvent (eventToProto e)).length = 4294967295))]
      rw [if_pos hle, htake]
      simp only [protoDecodeEvent_encode, hdrop, hconv, shouldIncludeEvent, limitReached,
        if_true]
      rw [ih hops fuel tail (offset + 1) (events ++ [e])]
      have hev : opsEvents (WriteOp.single e :: ops) = e :: opsEvents ops := by
        simp [opsEvents, opEvents]
      rw [hev]
      simp only [List.length_cons, List.append_assoc, List.cons_append,
        List.singleton_append]
      have harith : offset + 1 + (opsEvents ops).length =
          offset + ((opsEvents ops).length + 1) := by omega
      rw [harith]
      simp
    | batch es =>
      obtain ⟨hesWf, hblen⟩ := hop
      have h5 : ∀ x ∈ es, x.attributes.length = 5 := fun x hx => (hesWf x hx).2.2.2.2.1
      have hstream : opsBytes (WriteOp.batch es :: ops) ++ tail =
          255 :: 255 :: 255 :: 255 ::
          (((protoEncodeBatch (es.map eventToProto)).length % 256) ::
           ((protoEncodeBatch (es.map eventToProto)).length / 256 % 256) ::
           ((protoEncodeBatch (es.map eventToProto)).length / 65536 % 256) ::
           ((protoEncodeBatch (es.map eventToProto)).length / 16777216 % 256) ::
           (protoEncodeBatch (es.map eventToProto) ++ (opsBytes ops ++ tail))) := by
        simp [opsBytes, opBytes, frameBatch, putUint32LE]
      rw [hstream]
      have hsent : readU32 255 255 255 255 = 4294967295 := by decide
      have hread := readU32_putUint32LE (protoEncodeBatch (es.map eventToProto)).length
        (by omega)
      have hle : (protoEncodeBatch (es.map eventToProto)).length ≤
          (protoEncodeBatch (es.map eventToProto) ++ (opsBytes ops ++ tail)).length := by
        simp
      have htake : (protoEncodeBatch (es.map eventToProto) ++ (opsBytes ops ++ tail)).take
          (protoEncodeBatch (es.map eventToProto)).length =
            protoEncodeBatch (es.map eventToProto) := List.take_left _ _
      have hdrop : (protoEncodeBatch (es.map eventToProto) ++ (opsBytes ops ++ tail)).drop
          (protoEncodeBatch (es.map eventToProto)).length = opsBytes ops ++ tail :=
        List.drop_left _ _
      have hdec : protoDecodeBatchTop (protoEncodeBatch (es.map eventToProto)) =
          some (es.map eventToProto) := by
        unfold protoDecodeBatchTop
        exact protoDecodeBatch_encode (es.map eventToProto) _
          (by simpa using protoEncodeBatch_length_ge (es.map eventToProto))
      have hconv : (es.map eventToProto).map convertFromProto = es := by
        rw [List.map_map]
        apply List.map_congr_left ?_ |>.trans (List.map_id es)
        intro x hx
        exact convertFromProto_eventToProto x (h5 x hx)
      simp only [pbReadLoop, hsent, if_pos, hread, hle, if_true, htake, hdrop, hdec,
        pbBatchInclude_none]
      rw [hconv]
      simp only [List.length_map]
      rw [ih hops fuel tail (offset + es.length) (events ++ es)]
      have hev : opsEvents (WriteOp.batch es :: ops) = es ++ opsEvents ops := by
        simp [opsEvents, opEvents]
      rw [hev]
      simp only [List.length_append, List.append_assoc]
      have harith : offset + es.length + (opsEvents ops).length =
          offset + (es.length + (opsEvents ops).length) := by omega
      rw [harith]

/-- Every event appended by well-formed ops has the 5-slot attribute
shape. -/
theorem opsEvents_len5 (ops : List WriteOp) (hwf : ∀ op ∈ ops, op.Wf) :
    ∀ e ∈ opsEvents ops, e.attributes.length = 5 := by
  intro e he
  simp only [opsEvents, List.mem_flatten] at he
  obtain ⟨l, hl, hel⟩ := he
  simp only [List.mem_map] at hl
  obtain ⟨op, hop, rfl⟩ := hl
  have hw := hwf op hop
  cases op with
  | single x =>
    simp [opEvents] at hel
    subst hel
    exact hw.2.2.2.2.1
  | batch es =>
    simp [opEvents] at hel
    exact (hw.1 e hel).2.2.2.2.1

/-- Closing a healthy framed store flushes exactly the appended frames. -/
theorem pbClose_applyOps_fileData (ops : List WriteOp) :
    (pbClose (pbApplyOps ProtobufStore.new ops)).1.fileData = opsBytes ops := by
  obtain ⟨hok, hdata, _⟩ := pbApplyOps_healthy ops ProtobufStore.new rfl
  simp only [pbClose, pbFlush, hok]
  simpa [ProtobufStore.new] using hdata

/-- The framed store's filtered scan computes `pbFilterSpec`. -/
theorem pb_filtered_scan (ops : List WriteOp) (f : EventFilter)
    (hwf : ∀ op ∈ ops, op.Wf) :
    pbReadEvents (pbClose (pbApplyOps ProtobufStore.new ops)).1 (some f) =
      .ok (pbFilterSpec f (opsEvents ops)) := by
  rw [pbReadEvents, pbReadEventsBytes, pbClose_applyOps_fileData]
  rw [pbReadLoop_ops ops hwf _ (opsBytes_length_ge ops) (some f) 0 []]
  rw [pbScanModel_closed f (opsEvents ops) 0 [] (by simp)]
  simp [pbFilterSpec]

/-- Reading through an `OpenJSONLStore` handle scans the file lines. -/
theorem jsonl_openRead_scan (lines : List JLine) (filter : Option EventFilter) :
    jsonlReadEvents (JSONLStore.openRead lines) filter =
      jsonlScanLines lines filter 0 [] := by
  simp [jsonlReadEvents, JSONLStore.openRead]

/-- The lines a healthy live textual writer leaves on disk. -/
theorem jsonl_applyOps_lines (ops : List WriteOp) :
    (jsonlApplyOps JSONLStore.new ops).fileLines = jsonlLinesOf (opsEvents ops) := by
  obtain ⟨-, -, -, hlines, -⟩ := jsonlApplyOps_healthy ops JSONLStore.new rfl rfl
  simpa [JSONLStore.new] using hlines

/-- The textual store's filtered scan (through a read handle) computes
`jsonlFilterSpec`. -/
theorem jsonl_filtered_scan (ops : List WriteOp) (f : EventFilter)
    (hwf : ∀ op ∈ ops, op.Wf) :
    jsonlReadEvents (JSONLStore.openRead (jsonlApplyOps JSONLStore.new ops).fileLines)
      (some f) = .ok (jsonlFilterSpec f (opsEvents ops)) := by
  rw [jsonl_openRead_scan, jsonl_applyOps_lines]
  rw [jsonlScanLines_closed f (opsEvents ops) (opsEvents_len5 ops hwf) 0 [] (by simp)]
  simp [jsonlFilterSpec]

/-- Unfiltered append-then-scan for the textual encoder, through a read
handle over the live writer's flushed lines. -/
theorem jsonl_append_openRead_scan (ops : List WriteOp)
    (hwf : ∀ op ∈ ops, op.Wf) :
    jsonlReadEvents (JSONLStore.openRead (jsonlApplyOps JSONLStore.new ops).fileLines)
      none = .ok (opsEvents ops) := by
  rw [jsonl_openRead_scan, jsonl_applyOps_lines]
  rw [jsonlScanLines_none (opsEvents ops) (opsEvents_len5 ops hwf) 0 []]
  simp

/-- A framed events file ending in a truncated length word fails the whole
scan with the wrapped `io.ReadFull` error and yields no events. -/
theorem pb_truncated_scan (ops : List WriteOp) (hwf : ∀ op ∈ ops, op.Wf)
    (t : List Nat) (ht1 : t ≠ []) (ht3 : t.length ≤ 3) :
    pbReadEventsBytes (opsBytes ops ++ t) none =
      .error "read length: unexpected EOF" := by
  unfold pbReadEventsBytes
  have hops := opsBytes_length_ge ops
  have htpos : 1 ≤ t.length := by
    cases t
    · exact absurd rfl ht1
    · simp
  have hlen : (opsBytes ops ++ t).length =
      ((opsBytes ops ++ t).length - ops.length) + ops.length := by
    simp
    omega
  rw [hlen, pbReadLoop_ops_none_tail ops hwf _ t 0 []]
  obtain ⟨fr, hfr⟩ : ∃ fr, (opsBytes ops ++ t).length - ops.length = fr + 1 :=
    ⟨(opsBytes ops ++ t).length - ops.length - 1, by simp; omega⟩
  rw [hfr]
  rcases t with _ | ⟨a, _ | ⟨b, _ | ⟨c, _ | ⟨d, r⟩⟩⟩⟩
  · exact absurd rfl ht1
  · rfl
  · rfl
  · rfl
  · simp at ht3

/-- C1: for both encoders, appending any mix of single and batch appends
and scanning returns exactly the appended events in append order — amended:
the framed store must be flushed first (`WriteBatch` and `Close` flush;
`WriteEvent` alone does not), and the textual store must be scanned through
a read-opened handle, since the live writer's handle is write-only.  The
framed reader decodes any valid interleaving of single-record and
0xFFFFFFFF-sentinel batch frames produced by the writer. -/
theorem claim1_append_scan_roundtrip (ops : List WriteOp)
    (hwf : ∀ op ∈ ops, op.Wf) :
    pbReadEvents (pbClose (pbApplyOps ProtobufStore.new ops)).1 none =
      .ok (opsEvents ops) ∧
    jsonlReadEvents (JSONLStore.openRead (jsonlApplyOps JSONLStore.new ops).fileLines)
      none = .ok (opsEvents ops) :=
  ⟨pb_append_close_scan ops hwf, jsonl_append_openRead_scan ops hwf⟩

/-- C1 witness at the concrete mixed append sequence. -/
theorem claim1_append_scan_roundtrip_witness :
    (∀ op ∈ cOps, op.Wf) ∧
    (pbReadEvents (pbClose (pbApplyOps ProtobufStore.new cOps)).1 none =
      .ok (opsEvents cOps) ∧
    jsonlReadEvents (JSONLStore.openRead (jsonlApplyOps JSONLStore.new cOps).fileLines)
      none = .ok (opsEvents cOps)) :=
  ⟨by decide, claim1_append_scan_roundtrip cOps (by decide)⟩

/-- C1 counterexample: an event appended with the framed `WriteEvent` alone
is invisible to an immediate `ReadEvents` (no flush happened; the reader
re-opens the file), so append-then-scan as stated fails. -/
theorem claim1_counterexample :
    pbReadEvents (pbWriteEvent ProtobufStore.new cEv1) none = .ok [] ∧
    pbReadEvents (pbWriteEvent ProtobufStore.new cEv1) none ≠ .ok [cEv1] := by
  exact ⟨rfl, by decide⟩

/-- C2: both encoders scan in stored order applying the AND of the
constraints and the `Limit` cap — amended: the textual encoder skips the
first `Offset` events that satisfy the constraints, but the framed encoder
applies `Offset` to raw stored positions before filtering; the two give
identical results whenever `Offset ≤ 0`, not in general. -/
theorem claim2_filtered_scan (ops : List WriteOp) (f : EventFilter)
    (hwf : ∀ op ∈ ops, op.Wf) :
    pbReadEvents (pbClose (pbApplyOps ProtobufStore.new ops)).1 (some f) =
      .ok (pbFilterSpec f (opsEvents ops)) ∧
    jsonlReadEvents (JSONLStore.openRead (jsonlApplyOps JSONLStore.new ops).fileLines)
      (some f) = .ok (jsonlFilterSpec f (opsEvents ops)) ∧
    (f.offset ≤ 0 → pbFilterSpec f (opsEvents ops) = jsonlFilterSpec f (opsEvents ops)) := by
  refine ⟨pb_filtered_scan ops f hwf, jsonl_filtered_scan ops f hwf, ?_⟩
  intro hoff
  have h0 : f.offset.toNat = 0 := by omega
  simp [pbFilterSpec, jsonlFilterSpec, h0]

/-- C2 witness at the concrete store and a goroutine+limit filter. -/
theorem claim2_filtered_scan_witness :
    (∀ op ∈ cOps, op.Wf) ∧
    (pbReadEvents (pbClose (pbApplyOps ProtobufStore.new cOps)).1 (some cF1) =
      .ok (pbFilterSpec cF1 (opsEvents cOps)) ∧
    jsonlReadEvents (JSONLStore.openRead (jsonlApplyOps JSONLStore.new cOps).fileLines)
      (some cF1) = .ok (jsonlFilterSpec cF1 (opsEvents cOps)) ∧
    (cF1.offset ≤ 0 →
      pbFilterSpec cF1 (opsEvents cOps) = jsonlFilterSpec cF1 (opsEvents cOps))) :=
  ⟨by decide, claim2_filtered_scan cOps cF1 (by decide)⟩

/-- C2 counterexample: same stored contents, same filter (goroutine = 2,
offset = 1), different results — the framed store returns the goroutine-2
event, the textual store (and the claim's skip-after-filter semantics)
returns nothing. -/
theorem claim2_counterexample :
    pbReadEvents (pbClose (pbApplyOps ProtobufStore.new [.batch [cEv1, cEv3]])).1
      (some cF2) = .ok [cEv3] ∧
    jsonlReadEvents
      (JSONLStore.openRead (jsonlApplyOps JSONLStore.new [.batch [cEv1, cEv3]]).fileLines)
      (some cF2) = .ok [] ∧
    jsonlFilterSpec cF2 [cEv1, cEv3] = [] := by
  refine ⟨by decide, ?_, by decide⟩
  rw [jsonl_openRead_scan, jsonl_applyOps_lines]
  decide

/-- C3: `WriteBatch` atomicity — amended: the framed encoder is atomic in
both file contents and event count (all-or-nothing, error wrapping the
underlying failure, flushed before returning success); the textual encoder
leaves the file unchanged on a flush failure but has already incremented
the event count by the full batch length. -/
theorem claim3_writeBatch_atomicity (p : ProtobufStore) (j : JSONLStore)
    (es : List Event) :
    (p.fileFailing = true →
      (pbWriteBatch p es).2.isSome = true ∧
      (pbWriteBatch p es).1.fileData = p.fileData ∧
      (pbWriteBatch p es).1.eventCount = p.eventCount) ∧
    (p.fileFailing = false →
      (pbWriteBatch p es).2 = none ∧
      (pbWriteBatch p es).1.fileData = p.fileData ++ (p.buffer ++ frameBatch es) ∧
      (pbWriteBatch p es).1.buffer = [] ∧
      (pbWriteBatch p es).1.eventCount = p.eventCount + es.length) ∧
    (j.fileFailing = true →
      (jsonlWriteBatch j es).2.isSome = true ∧
      (jsonlWriteBatch j es).1.fileLines = j.fileLines ∧
      (jsonlWriteBatch j es).1.eventCount = j.eventCount + es.length) ∧
    (j.fileFailing = false →
      (jsonlWriteBatch j es).2 = none ∧
      (jsonlWriteBatch j es).1.fileLines = j.fileLines ++ (j.buffer ++ jsonlLinesOf es) ∧
      (jsonlWriteBatch j es).1.buffer = [] ∧
      (jsonlWriteBatch j es).1.eventCount = j.eventCount + es.length) := by
  refine ⟨?_, ?_, ?_, ?_⟩ <;> intro h <;>
    simp [pbWriteBatch, jsonlWriteBatch, pbFlush, jsonlFlush, jsonlLinesOf, h]

/-- C3 witness: a failing framed store rejects the batch leaving file and
count untouched; a healthy framed store appends and counts. -/
theorem claim3_writeBatch_atomicity_witness :
    ((pbWriteBatch ⟨[], [], 0, true⟩ [cEv1]).2.isSome = true ∧
     (pbWriteBatch ⟨[], [], 0, true⟩ [cEv1]).1.fileData = [] ∧
     (pbWriteBatch ⟨[], [], 0, true⟩ [cEv1]).1.eventCount = 0) ∧
    ((jsonlWriteBatch ⟨[], [], 0, false, false⟩ [cEv1]).2 = none ∧
     (jsonlWriteBatch ⟨[], [], 0, false, false⟩ [cEv1]).1.fileLines =
       [] ++ ([] ++ jsonlLinesOf [cEv1]) ∧
     (jsonlWriteBatch ⟨[], [], 0, false, false⟩ [cEv1]).1.buffer = [] ∧
     (jsonlWriteBatch ⟨[], [], 0, false, false⟩ [cEv1]).1.eventCount = 0 + 1) :=
  ⟨(claim3_writeBatch_atomicity ⟨[], [], 0, true⟩ ⟨[], [], 0, false, false⟩ [cEv1]).1 rfl,
   by
     have := (claim3_writeBatch_atomicity ⟨[], [], 0, true⟩ ⟨[], [], 0, false, false⟩
       [cEv1]).2.2.2 rfl
     simpa using this⟩

/-- C3 counterexample: on a textual store whose flush fails, `WriteBatch`
returns the I/O error and appends nothing to the file, yet the event count
has grown by the batch length — not unchanged as claimed. -/
theorem claim3_counterexample :
    (jsonlWriteBatch ⟨[], [], 0, false, true⟩ [cEv1]).2.isSome = true ∧
    (jsonlWriteBatch ⟨[], [], 0, false, true⟩ [cEv1]).1.fileLines = [] ∧
    (jsonlWriteBatch ⟨[], [], 0, false, true⟩ [cEv1]).1.eventCount = 1 :=
  ⟨rfl, rfl, rfl⟩

/-- C4: a truncated final record — amended: the scan surfaces the parse
error (without any byte offset) and returns no events at all: the earlier
well-formed records are discarded rather than returned, for both
encoders. -/
theorem claim4_truncated_scan (ops : List WriteOp) (hwf : ∀ op ∈ ops, op.Wf)
    (t : List Nat) (ht1 : t ≠ []) (ht3 : t.length ≤ 3)
    (evs : List Event) (h5 : ∀ e ∈ evs, e.attributes.length = 5) :
    pbReadEventsBytes (opsBytes ops ++ t) none =
      .error "read length: unexpected EOF" ∧
    jsonlReadEvents (JSONLStore.openRead (jsonlLinesOf evs ++ [JLine.malformed])) none =
      .error "unmarshal event: invalid character" := by
  refine ⟨pb_truncated_scan ops hwf t ht1 ht3, ?_⟩
  rw [jsonl_openRead_scan]
  exact jsonlScanLines_malformed_tail evs h5 0 []

/-- C4 witness at one good frame plus a one-byte truncation, and one good
line plus a malformed line. -/
theorem claim4_truncated_scan_witness :
    (∀ op ∈ cOps, op.Wf) ∧ ([(7 : Nat)] ≠ []) ∧ ([(7 : Nat)].length ≤ 3) ∧
    (∀ e ∈ [cEv1], e.attributes.length = 5) ∧
    (pbReadEventsBytes (opsBytes cOps ++ [7]) none =
      .error "read length: unexpected EOF" ∧
    jsonlReadEvents (JSONLStore.openRead (jsonlLinesOf [cEv1] ++ [JLine.malformed]))
      none = .error "unmarshal event: invalid character") :=
  ⟨by decide, by decide, by decide, by decide,
   claim4_truncated_scan cOps (by decide) [7] (by decide) (by decide) [cEv1] (by decide)⟩

/-- C4 counterexample: one complete framed record followed by a stray byte:
the scan errors and does not return the earlier record. -/
theorem claim4_counterexample :
    pbReadEventsBytes (opsBytes [.single cEv1] ++ [0]) none =
      .error "read length: unexpected EOF" ∧
    pbReadEventsBytes (opsBytes [.single cEv1] ++ [0]) none ≠ .ok [cEv1] := by
  exact ⟨by decide, by decide⟩

/-- C5: no-loss drain — after the orchestrator commands shutdown (ringbuffer
closed, readers joined, channel closed, processors drained and final batches
flushed), the number of events appended to the store equals the number read
from the ringbuffer minus the number rejected by decode failures. -/
theorem claim5_no_loss_drain {B N M : Nat} {ring : List Bool} {s t : DrainState}
    (hinit : DrainInit N M ring s)
    (hsteps : Relation.ReflTransGen (DrainStep B) s t)
    (hdone : DrainDone t) :
    t.readCount = t.rejected + t.stored ∧ t.stored = t.readCount - t.rejected :=
  drain_no_loss hinit hsteps hdone

/-- C5 witness: a full concrete execution — read one record, close, drain,
flush, exit — ends with one stored event out of one read and none
rejected. -/
theorem claim5_no_loss_drain_witness :
    DrainInit 1 1 [true] dInit0 ∧ DrainDone dFinal ∧
    (dFinal.readCount = dFinal.rejected + dFinal.stored ∧
     dFinal.stored = dFinal.readCount - dFinal.rejected) := by
  have hinit : DrainInit 1 1 [true] dInit0 := ⟨by decide, rfl⟩
  have h1 : DrainStep 1 dInit0 ⟨[], false, 1, 1, 0, 1, false, [some 0], 0⟩ :=
    DrainStep.readOk dInit0 [] rfl rfl (by decide)
  have h2 : DrainStep 1 (⟨[], false, 1, 1, 0, 1, false, [some 0], 0⟩ : DrainState)
      ⟨[], true, 1, 1, 0, 1, false, [some 0], 0⟩ :=
    DrainStep.closeRing _ rfl
  have h3 : DrainStep 1 (⟨[], true, 1, 1, 0, 1, false, [some 0], 0⟩ : DrainState)
      ⟨[], true, 0, 1, 0, 1, false, [some 0], 0⟩ :=
    DrainStep.readerExit _ rfl (by decide)
  have h4 : DrainStep 1 (⟨[], true, 0, 1, 0, 1, false, [some 0], 0⟩ : DrainState)
      ⟨[], true, 0, 1, 0, 1, true, [some 0], 0⟩ :=
    DrainStep.closeChan _ rfl rfl rfl
  have h5 : DrainStep 1 (⟨[], true, 0, 1, 0, 1, true, [some 0], 0⟩ : DrainState)
      ⟨[], true, 0, 1, 0, 0, true, [some 0], 1⟩ :=
    DrainStep.consumeFlush _ 0 0 rfl (by decide) (by decide)
  have h6 : DrainStep 1 (⟨[], true, 0, 1, 0, 0, true, [some 0], 1⟩ : DrainState) dFinal :=
    DrainStep.procExit _ 0 0 rfl rfl rfl
  have hsteps : Relation.ReflTransGen (DrainStep 1) dInit0 dFinal :=
    .head h1 (.head h2 (.head h3 (.head h4 (.head h5 (.head h6 .refl)))))
  have hdone : DrainDone dFinal := by
    intro p hp
    simpa [dFinal] using hp
  exact ⟨hinit, hdone, claim5_no_loss_drain hinit hsteps hdone⟩

/-- C6: format names — amended: only `"jsonl"`/`"json"` (case-insenstively)
select the textual encoder and only `"protobuf"`/`"pb"`/`"proto"` the
framed one; `"binary"`, `"framed"` and `"lines"`, like every other name,
make `CreateSession` fail with the unknown-format error. -/
theorem claim6_format_names :
    createSessionFormat "jsonl" = some .jsonl ∧
    createSessionFormat "json" = some .jsonl ∧
    createSessionFormat "protobuf" = some .protobuf ∧
    createSessionFormat "pb" = some .protobuf ∧
    createSessionFormat "proto" = some .protobuf ∧
    (∀ s : String, toLowerAscii s ≠ "jsonl" → toLowerAscii s ≠ "json" →
      toLowerAscii s ≠ "protobuf" → toLowerAscii s ≠ "pb" → toLowerAscii s ≠ "proto" →
      createSessionFormat s = none) := by
  refine ⟨by decide, by decide, by decide, by decide, by decide, ?_⟩
  intro s h1 h2 h3 h4 h5
  simp [createSessionFormat, h1, h2, h3, h4, h5]

/-- C6 witness: the unknown-name branch applied at `"binary"`. -/
theorem claim6_format_names_witness :
    (toLowerAscii "binary" ≠ "jsonl") ∧ (toLowerAscii "binary" ≠ "json") ∧
    (toLowerAscii "binary" ≠ "protobuf") ∧ (toLowerAscii "binary" ≠ "pb") ∧
    (toLowerAscii "binary" ≠ "proto") ∧ createSessionFormat "binary" = none :=
  ⟨by decide, by decide, by decide, by decide, by decide,
   claim6_format_names.2.2.2.2.2 "binary" (by decide) (by decide) (by decide)
     (by decide) (by decide)⟩

/-- C6 counterexample: `"binary"`, `"framed"` and `"lines"` do not select
any encoder — `CreateSession` rejects them, contrary to the claim. -/
theorem claim6_counterexample :
    createSessionFormat "binary" = none ∧
    createSessionFormat "framed" = none ∧
    createSessionFormat "lines" = none := by
  exact ⟨by decide, by decide, by decide⟩

/-- C7: deadline firing — amended: the worker flushes only a non-empty
batch and only then rearms the timer; when the deadline fires on an empty
batch the early return skips the rearm, so the timer stays disarmed and a
later lone event (with batch capacity at least 2) sits in the batch with no
armed timer, waiting for the batch to fill or shutdown. -/
theorem claim7_timer_rearm (s : ProcWorker) (B : Nat) (e : Event) :
    onFlushTimer s = (if s.batch = [] then { s with timerArmed := false }
      else { batch := [], stored := s.stored ++ [s.batch], timerArmed := true }) ∧
    (s.batch = [] → 2 ≤ B →
      onEvent B e (onFlushTimer s) =
        { batch := [e], stored := s.stored, timerArmed := false }) := by
  constructor
  · by_cases h : s.batch = [] <;> simp [onFlushTimer, flushBatch, h]
  · intro hb hB
    simp [onFlushTimer, flushBatch, onEvent, hb]
    omega

/-- C7 witness at an idle worker with an armed timer. -/
theorem claim7_timer_rearm_witness :
    ((⟨[], [], true⟩ : ProcWorker).batch = []) ∧ (2 ≤ 2) ∧
    (onFlushTimer ⟨[], [], true⟩ =
      (if (⟨[], [], true⟩ : ProcWorker).batch = []
        then { (⟨[], [], true⟩ : ProcWorker) with timerArmed := false }
        else { batch := [], stored := ([] : List (List Event)) ++ [[]],
               timerArmed := true }) ∧
    ((⟨[], [], true⟩ : ProcWorker).batch = [] → 2 ≤ 2 →
      onEvent 2 cEv1 (onFlushTimer ⟨[], [], true⟩) =
        { batch := [cEv1], stored := [], timerArmed := false })) :=
  ⟨rfl, by decide, claim7_timer_rearm ⟨[], [], true⟩ 2 cEv1⟩

/-- C7 counterexample: a deadline firing with an empty batch leaves the
timer disarmed — the worker does not rearm it — and a following lone event
is neither flushed nor covered by an armed timer. -/
theorem claim7_counterexample :
    (onFlushTimer ⟨[], [], true⟩).timerArmed = false ∧
    (onEvent 1000 cEv1 (onFlushTimer ⟨[], [], true⟩)).stored = [] ∧
    (onEvent 1000 cEv1 (onFlushTimer ⟨[], [], true⟩)).timerArmed = false := by
  exact ⟨rfl, rfl, rfl⟩

/-- C8: the metrics filename — amended: with a configured suffix the name is
`metrics_<timestamp>__<suffix>.json` (two underscores, since the suffix is
underscore-prefixed once when non-empty and again when appended), and the
timestamp is omitted entirely when the no-timestamp flag is set. -/
theorem claim8_metrics_filename (mfp : String) (mft : Bool) (ts : String) :
    saveMetricsFilename mfp mft ts =
      (if mft then "metrics" else "metrics" ++ "_" ++ ts) ++
        (if mfp = "" then "" else "_" ++ "_" ++ mfp) ++ ".json" := by
  have hp : ("_" ++ mfp : String) ≠ "" := by
    intro h
    have h2 := congrArg String.length h
    rw [String.length_append] at h2
    have h3 : ("_" : String).length = 1 := rfl
    have h4 : ("" : String).length = 0 := rfl
    omega
  have hUU : ∀ X : String, "_" ++ ("_" ++ X) = "__" ++ X := by
    intro X
    rw [← String.append_assoc]
    rfl
  have hA : ∀ X : String, ("metrics_" : String) ++ ("_" ++ X) = "metrics" ++ ("__" ++ X) := by
    intro X
    rw [← String.append_assoc, ← String.append_assoc]
    rfl
  unfold saveMetricsFilename
  by_cases hm : mfp = "" <;> cases mft <;>
    simp [hm, hp, String.append_assoc, hUU, hA]

/-- C8 witness at a configured suffix with the timestamp enabled. -/
theorem claim8_metrics_filename_witness :
    saveMetricsFilename "run7" false "2025-01-02-03-04-05" =
      (if false then "metrics" else "metrics" ++ "_" ++ "2025-01-02-03-04-05") ++
        (if "run7" = "" then "" else "_" ++ "_" ++ "run7") ++ ".json" :=
  claim8_metrics_filename "run7" false "2025-01-02-03-04-05"

/-- C8 counterexample: with suffix `x` the produced name has two
underscores between timestamp and suffix, not one; and with the
no-timestamp flag the timestamp is absent. -/
theorem claim8_counterexample :
    saveMetricsFilename "x" false "2025-01-02-03-04-05" =
      "metrics_2025-01-02-03-04-05__x.json" ∧
    saveMetricsFilename "x" false "2025-01-02-03-04-05" ≠
      "metrics_2025-01-02-03-04-05_x.json" ∧
    saveMetricsFilename "" true "2025-01-02-03-04-05" = "metrics.json" := by
  exact ⟨by decide, by decide, by decide⟩

/-- C9: `CreateSession` with an unrecognized format fails only after the
session directory and `metadata.json` exist; nothing is rolled back, so the
failed session is visible to `ListSessions` with metadata but no event-data
file. -/
theorem claim9_create_session_partial (fs : SessionFS) (id format : String)
    (hfmt : createSessionFormat format = none)
    (hfresh : ∀ p ∈ fs.eventFiles, p.1 ≠ id) :
    (createSession fs id format).2 =
      .error ("unknown format: " ++ format ++ " (supported: jsonl, protobuf)") ∧
    id ∈ (createSession fs id format).1.dirs ∧
    id ∈ (createSession fs id format).1.metadata ∧
    (∀ p ∈ (createSession fs id format).1.eventFiles, p.1 ≠ id) ∧
    id ∈ listSessions (createSession fs id format).1 := by
  have hdirs : (createSession fs id format).1.dirs =
      (if id ∈ fs.dirs then fs.dirs else fs.dirs ++ [id]) := by
    simp [createSession, hfmt]
  have hmeta : (createSession fs id format).1.metadata =
      (if id ∈ fs.metadata then fs.metadata else fs.metadata ++ [id]) := by
    simp [createSession, hfmt]
  have hef : (createSession fs id format).1.eventFiles = fs.eventFiles := by
    simp [createSession, hfmt]
  have hind : id ∈ (createSession fs id format).1.dirs := by
    rw [hdirs]
    by_cases hd : id ∈ fs.dirs <;> simp [hd]
  have hinm : id ∈ (createSession fs id format).1.metadata := by
    rw [hmeta]
    by_cases hd : id ∈ fs.metadata <;> simp [hd]
  refine ⟨by simp [createSession, hfmt], hind, hinm, ?_, ?_⟩
  · rw [hef]
    exact hfresh
  · simp only [listSessions]
    rw [List.mem_filter]
    exact ⟨hind, by simpa using hinm⟩

/-- C9 witness: creating a session with format `"framed"` in an empty base
directory. -/
theorem claim9_create_session_partial_witness :
    createSessionFormat "framed" = none ∧
    ((createSession ⟨[], [], []⟩ "sess1" "framed").2 =
      .error ("unknown format: " ++ "framed" ++ " (supported: jsonl, protobuf)") ∧
    "sess1" ∈ (createSession ⟨[], [], []⟩ "sess1" "framed").1.dirs ∧
    "sess1" ∈ (createSession ⟨[], [], []⟩ "sess1" "framed").1.metadata ∧
    (∀ p ∈ (createSession ⟨[], [], []⟩ "sess1" "framed").1.eventFiles, p.1 ≠ "sess1") ∧
    "sess1" ∈ listSessions (createSession ⟨[], [], []⟩ "sess1" "framed").1) :=
  ⟨by decide,
   claim9_create_session_partial ⟨[], [], []⟩ "sess1" "framed" (by decide) (by decide)⟩

/-- C10: the live textual writer opens `events.jsonl` write-only, and
`ReadEvents`/`GetGoroutines` scan through that same handle, so they always
fail on a `NewJSONLStore` store no matter what was appended; only a store
opened for reading (`OpenJSONLStore`) scans successfully. -/
theorem claim10_wronly_scan (ops : List WriteOp) (filter : Option EventFilter)
    (hwf : ∀ op ∈ ops, op.Wf) :
    jsonlReadEvents (jsonlApplyOps JSONLStore.new ops) filter =
      .error "scan file: bad file descriptor" ∧
    jsonlGetGoroutines (jsonlApplyOps JSONLStore.new ops) =
      .error "scan file: bad file descriptor" ∧
    jsonlReadEvents (JSONLStore.openRead (jsonlApplyOps JSONLStore.new ops).fileLines)
      none = .ok (opsEvents ops) := by
  obtain ⟨-, hread, -, -, -⟩ := jsonlApplyOps_healthy ops JSONLStore.new rfl rfl
  have hra : (jsonlApplyOps JSONLStore.new ops).readable = false := by
    simpa [JSONLStore.new] using hread
  exact ⟨by simp [jsonlReadEvents, hra], by simp [jsonlGetGoroutines, hra],
    jsonl_append_openRead_scan ops hwf⟩

/-- C10 witness at the concrete mixed append sequence and a filter. -/
theorem claim10_wronly_scan_witness :
    (∀ op ∈ cOps, op.Wf) ∧
    (jsonlReadEvents (jsonlApplyOps JSONLStore.new cOps) (some cF1) =
      .error "scan file: bad file descriptor" ∧
    jsonlGetGoroutines (jsonlApplyOps JSONLStore.new cOps) =
      .error "scan file: bad file descriptor" ∧
    jsonlReadEvents (JSONLStore.openRead (jsonlApplyOps JSONLStore.new cOps).fileLines)
      none = .ok (opsEvents cOps)) :=
  ⟨by decide, claim10_wronly_scan cOps (some cF1) (by decide)⟩
